import Mathlib

/-!
Verification of the xml-surgeon surgical/structural mutators
(`src/assets/skills/xml-surgeon/scripts/lib.py` and `main.py`).

Strings are modelled as `List Char` (Python `str` indexing is by code point).
Python's `\s` character class is modelled by its ASCII part, which is the
only part exercised by any document in scope.
-/

namespace XmlSurgeon

/-- Convert a Lean string literal to the `List Char` representation. -/
def s2l (s : String) : List Char := s.data

/-- ASCII fragment of Python's `\s` / `str.isspace`. -/
def isPySpace (c : Char) : Bool :=
  c = ' ' || c = '\t' || c = '\n' || c = '\r' || c = '\x0b' || c = '\x0c'

/-- Length of the leading whitespace run of a string. -/
def countWs : List Char → Nat
  | [] => 0
  | c :: cs => if isPySpace c then countWs cs + 1 else 0

/-- `lib.line_starts`: offset of the start of every line (`[0]` plus one entry
after each newline). -/
def lineStartsAux : List Char → Nat → List Nat
  | [], _ => []
  | c :: cs, i => if c = '\n' then (i + 1) :: lineStartsAux cs (i + 1) else lineStartsAux cs (i + 1)

/-- `lib.line_starts`. -/
def line_starts (text : List Char) : List Nat := 0 :: lineStartsAux text 0

/-- `lib.local_tag` helper: everything after the first `\x7d`. -/
def afterBrace : List Char → List Char
  | [] => []
  | c :: cs => if c = '\x7d' then cs else afterBrace cs

/-- `lib.local_tag`: `tag.split("\x7d", 1)[-1] if "\x7d" in tag else tag`. -/
def local_tag (tag : List Char) : List Char :=
  if tag.contains '\x7d' then afterBrace tag else tag

/-- Python `str.find(needle)` restricted to the suffix: first index at which
`needle` occurs, if any. -/
def findSub (needle : List Char) : List Char → Option Nat
  | [] => if needle = [] then some 0 else none
  | c :: cs =>
    if needle.isPrefixOf (c :: cs) then some 0
    else (findSub needle cs).map (· + 1)

/-- Python `text.find(needle, start)` (with `-1` modelled as `none`). -/
def findFrom (text needle : List Char) (start : Nat) : Option Nat :=
  (findSub needle (text.drop start)).map (· + start)

/-- Python `str.rfind(needle)`: the last index at which `needle` occurs. -/
def rfindSub (text needle : List Char) : Option Nat :=
  ((List.range (text.length + 1)).filter
    (fun idx => needle.isPrefixOf (text.drop idx))).getLast?

/-- The quote-tracking scan of `lib.find_start_tag_span` (lines 450-461): walk
forward from the candidate tag start, toggling single/double quote state, and
return the offset of the first `>` seen outside quotes. -/
def scanGt : List Char → Option Char → Nat → Option Nat
  | [], _, _ => none
  | c :: cs, inq, i =>
    if c = '"' || c = '\'' then
      match inq with
      | none => scanGt cs (some c) (i + 1)
      | some qc => if qc = c then scanGt cs none (i + 1) else scanGt cs (some qc) (i + 1)
    else if c = '>' && inq = none then some i
    else scanGt cs inq (i + 1)

/-- `lib.find_start_tag_span`: find `<tag` (falling back to the first `<`)
at or after `line_start`, then scan to the matching unquoted `>`; the span is
inclusive on both ends. -/
def find_start_tag_span (text : List Char) (line_start : Nat) (tag : List Char) :
    Option (Nat × Nat) :=
  let start? :=
    match findFrom text ('<' :: tag) line_start with
    | some s => some s
    | none => findFrom text ['<'] line_start
  match start? with
  | none => none
  | some start => (scanGt (text.drop start) none 0).map (fun off => (start, start + off))

/-- One character of `xml.sax.saxutils.escape`: `&`, `<`, `>` plus at most one
extra quote entity.  The sequential `str.replace` passes of the library are
equivalent to this per-character map because no replacement output contains a
character that a later pass rewrites. -/
def escChar (extra : Option (Char × List Char)) (c : Char) : List Char :=
  if c = '&' then s2l "&amp;"
  else if c = '<' then s2l "&lt;"
  else if c = '>' then s2l "&gt;"
  else
    match extra with
    | some (q, ent) => if c = q then ent else [c]
    | none => [c]

/-- Concatenated character-wise expansion. -/
def escAll (f : Char → List Char) : List Char → List Char
  | [] => []
  | c :: cs => f c ++ escAll f cs

/-- `xml_escape(value)` as used for element text content. -/
def escape_text (value : List Char) : List Char := escAll (escChar none) value

/-- `lib.escape_attr`: escape for the quote character that surrounds the
attribute value. -/
def escape_attr (value : List Char) (quote : Char) : List Char :=
  if quote = '"' then escAll (escChar (some ('"', s2l "&quot;"))) value
  else escAll (escChar (some ('\'', s2l "&apos;"))) value

/-- Python `str.rstrip()` (ASCII whitespace). -/
def pyRstrip (s : List Char) : List Char :=
  ((s.reverse).dropWhile isPySpace).reverse

/-- The lazy `(.*?)\2` tail of the attribute pattern: scan for the first
occurrence of the quote character `q`; `.` does not match a newline, so the
scan fails if a newline is reached first.  Returns the group-3 content. -/
def lazyVal (q : Char) : List Char → Option (List Char)
  | [] => none
  | c :: cs =>
    if c = q then some []
    else if c = '\n' then none
    else (lazyVal q cs).map (c :: ·)

/-- One backtracking candidate of the pattern
`(\s+NAME\s*=\s*)(["\x27])(.*?)\2` at a fixed position: `\s+` consumes exactly
`j` characters (all whitespace by construction of the caller), then the
literal (`re.escape`d) name, `\s*=\s*`, an opening quote, and the lazy value.
Returns `(group1, quoteChar, group3)`. -/
def tryNameAt (s name : List Char) (j : Nat) : Option (List Char × Char × List Char) :=
  let afterWs := s.drop j
  if name.isPrefixOf afterWs then
    let afterName := afterWs.drop name.length
    let w2 := countWs afterName
    match afterName.drop w2 with
    | c2 :: rest2 =>
      if c2 = '=' then
        let w3 := countWs rest2
        match rest2.drop w3 with
        | q :: rest3 =>
          if q = '"' || q = '\'' then
            (lazyVal q rest3).map
              (fun v => (s.take j ++ name ++ afterName.take w2 ++ ['='] ++ rest2.take w3, q, v))
          else none
        | [] => none
      else none
    | [] => none
  else none

/-- Greedy `\s+` with backtracking: try the longest whitespace run first,
then successively shorter ones (at least one character). -/
def tryCand (s name : List Char) : Nat → Option (List Char × Char × List Char)
  | 0 => none
  | j + 1 =>
    match tryNameAt s name (j + 1) with
    | some r => some r
    | none => tryCand s name j

/-- Attempt the attribute pattern anchored at the start of `s`. -/
def tryAt (s name : List Char) : Option (List Char × Char × List Char) :=
  tryCand s name (countWs s)

/-- `re.search` of the attribute pattern: leftmost match.  Returns the match
start together with groups 1-3. -/
def attrSearchAux (name : List Char) : List Char → Nat → Option (Nat × List Char × Char × List Char)
  | [], _ => none
  | c :: cs, i =>
    match tryAt (c :: cs) name with
    | some (g1, q, g3) => some (i, g1, q, g3)
    | none => attrSearchAux name cs (i + 1)

/-- Leftmost match of `(\s+NAME\s*=\s*)(["\x27])(.*?)\2` in `t`. -/
def attrSearch (t name : List Char) : Option (Nat × List Char × Char × List Char) :=
  attrSearchAux name t 0

/-- Python `re.sub` replacement-template expansion, with the match's groups.
`\\` is a literal backslash, `\g<n>`-free single-digit `\1`..`\9` are group
references, the classic letter escapes denote control characters, unknown
letter escapes are errors (`none`), any other escaped character is left
alone (backslash kept).  Octal (`\0`), multi-digit and `\g` references are
not modelled and map to `none`; no claim exercises them. -/
def expandTemplate (groups : List (List Char)) : List Char → Option (List Char)
  | [] => some []
  | c0 :: rest =>
    if c0 = '\\' then
      match rest with
      | [] => none
      | c :: rest2 =>
        if c = '\\' then (expandTemplate groups rest2).map ('\\' :: ·)
        else if c.isDigit then
          if c = '0' then none
          else
            match rest2 with
            | d :: _ => if d.isDigit then none else
                match groups.get? (c.toNat - '1'.toNat) with
                | some g => (expandTemplate groups rest2).map (g ++ ·)
                | none => none
            | [] =>
                match groups.get? (c.toNat - '1'.toNat) with
                | some g => (expandTemplate groups rest2).map (g ++ ·)
                | none => none
        else if c = 'n' then (expandTemplate groups rest2).map ('\n' :: ·)
        else if c = 't' then (expandTemplate groups rest2).map ('\t' :: ·)
        else if c = 'r' then (expandTemplate groups rest2).map ('\r' :: ·)
        else if c = 'v' then (expandTemplate groups rest2).map ('\x0b' :: ·)
        else if c = 'f' then (expandTemplate groups rest2).map ('\x0c' :: ·)
        else if c = 'a' then (expandTemplate groups rest2).map ('\x07' :: ·)
        else if c = 'b' then (expandTemplate groups rest2).map ('\x08' :: ·)
        else if c.isAlpha then none
        else (expandTemplate groups rest2).map (fun e => '\\' :: c :: e)
    else (expandTemplate groups rest).map (c0 :: ·)

/-- `lib.set_attr_in_tag`.  On a pattern match, `pattern.sub(replacement,
tag_text, count=1)` replaces the leftmost match (the one `search` found) with
the template-expanded replacement `group1 + quote + escaped + quote`; a
template error (`re.error`) is modelled as `none`.  Otherwise a fresh
`name="value"` assignment is inserted before the closing `/>` or `>`. -/
def set_attr_in_tag (tag_text name value : List Char) : Option (List Char × Bool) :=
  match attrSearch tag_text name with
  | some (i, g1, q, g3) =>
    let escaped := escape_attr value q
    let replacement := g1 ++ [q] ++ escaped ++ [q]
    let mlen := g1.length + 1 + g3.length + 1
    (expandTemplate [g1, [q], g3] replacement).map
      (fun ex => (tag_text.take i ++ ex ++ tag_text.drop (i + mlen), true))
  | none =>
    let ins := [' '] ++ name ++ ['=', '"'] ++ escape_attr value '"' ++ ['"']
    if List.isSuffixOf ['/', '>'] (pyRstrip tag_text) then
      match rfindSub tag_text ['/', '>'] with
      | some idx => some (tag_text.take idx ++ ins ++ tag_text.drop idx, true)
      | none => some (tag_text, false)
    else if List.isSuffixOf ['>'] (pyRstrip tag_text) then
      match rfindSub tag_text ['>'] with
      | some idx => some (tag_text.take idx ++ ins ++ tag_text.drop idx, true)
      | none => some (tag_text, false)
    else some (tag_text, false)

/-- `lib.del_attr_in_tag`: same pattern (group numbers shifted, same matched
span); the leftmost match is removed. -/
def del_attr_in_tag (tag_text name : List Char) : List Char × Bool :=
  match attrSearch tag_text name with
  | none => (tag_text, false)
  | some (i, g1, _, g3) =>
    (tag_text.take i ++ tag_text.drop (i + (g1.length + 1 + g3.length + 1)), true)

/-- The data the surgical mutators read from a matched lxml element:
`el.sourceline or 0`, `str(el.tag)` and `len(el)`. -/
structure PyElement where
  sourceline : Nat
  tag : List Char
  nchildren : Nat
deriving DecidableEq

/-- An EditSpan as collected by the surgical mutators:
`(startOffset, endOffset, replacementText)`. -/
abbrev Edit := Nat × Nat × List Char

/-- Stable insertion step for descending sort by start offset. -/
def insertDesc (e : Edit) : List Edit → List Edit
  | [] => [e]
  | x :: xs => if x.1 ≤ e.1 then e :: x :: xs else x :: insertDesc e xs

/-- `sorted(edits, key=lambda x: x[0], reverse=True)` (start offsets of
collected edits are pairwise distinct, so stability is irrelevant). -/
def sortDesc (edits : List Edit) : List Edit := edits.foldr insertDesc []

/-- The application loop of `apply_attr_surgical` (lines 528-529):
`text = text[:start] + new_tag + text[end + 1:]`, folded over the
descending-sorted edits. -/
def applyEditsIncl : List Edit → List Char → List Char
  | [], t => t
  | (s, e, r) :: rest, t => applyEditsIncl rest (t.take s ++ r ++ t.drop (e + 1))

/-- The application loop of `apply_text_surgical` (lines 570-571):
`text = text[:start] + new_text + text[end:]`. -/
def applyEditsExcl : List Edit → List Char → List Char
  | [], t => t
  | (s, e, r) :: rest, t => applyEditsExcl rest (t.take s ++ r ++ t.drop e)

/-- Python slice `text[start:end+1]`. -/
def sliceIncl (text : List Char) (start e : Nat) : List Char :=
  (text.drop start).take (e + 1 - start)

/-- The collection loop of `lib.apply_attr_surgical` (lines 508-526),
threading the `seen` start-offset set; `none` models an uncaught exception
raised by `set_attr_in_tag`. -/
def collectAttrEdits (text : List Char) (starts : List Nat) (name value : List Char)
    (set_value : Bool) : List PyElement → List Nat → Option (List Edit)
  | [], _ => some []
  | el :: rest, seen =>
    let line := el.sourceline
    if line = 0 ∨ starts.length < line then collectAttrEdits text starts name value set_value rest seen
    else
      match find_start_tag_span text (starts.getD (line - 1) 0) (local_tag el.tag) with
      | none => collectAttrEdits text starts name value set_value rest seen
      | some (start, e) =>
        if start ∈ seen then collectAttrEdits text starts name value set_value rest seen
        else
          let tag_text := sliceIncl text start e
          let res : Option (List Char × Bool) :=
            if set_value then set_attr_in_tag tag_text name value
            else some (del_attr_in_tag tag_text name)
          match res with
          | none => none
          | some (new_tag, changed) =>
            (collectAttrEdits text starts name value set_value rest (start :: seen)).map
              (fun es =>
                if changed ∧ new_tag ≠ tag_text then (start, e, new_tag) :: es else es)

/-- `lib.apply_attr_surgical`: collect all edits, then apply them in
descending order of start offset; returns the new text and the edit count.
`value.getD []` models Python's `value or ""`. -/
def apply_attr_surgical (text : List Char) (elements : List PyElement) (name : List Char)
    (value : Option (List Char)) (set_value : Bool) : Option (List Char × Nat) :=
  (collectAttrEdits text (line_starts text) name (value.getD []) set_value elements []).map
    (fun edits => (applyEditsIncl (sortDesc edits) text, edits.length))

/-- `\s*>\s*$` after a `/`: maximal whitespace, a `>`, then only whitespace up
to the end of the string. -/
def closeTail (cs : List Char) : Bool :=
  match cs.drop (countWs cs) with
  | '>' :: rest2 => rest2.all isPySpace
  | _ => false

/-- Leftmost match start of `re.search(r"/\s*>\s*$", tag_text)`. -/
def selfCloseAt : List Char → Option Nat
  | [] => none
  | c :: rest =>
    if c = '/' && closeTail rest then some 0 else (selfCloseAt rest).map (· + 1)

/-- The collection loop of `lib.apply_text_surgical` (lines 541-568).
`none` models the `fail` on an element with child elements and the
`re.error` raised for a bad replacement template. -/
def collectTextEdits (text : List Char) (starts : List Nat) (value : List Char) :
    List PyElement → List Nat → Option (List Edit)
  | [], _ => some []
  | el :: rest, seen =>
    if el.nchildren ≠ 0 then none
    else
      let line := el.sourceline
      if line = 0 ∨ starts.length < line then collectTextEdits text starts value rest seen
      else
        let tag := local_tag el.tag
        match find_start_tag_span text (starts.getD (line - 1) 0) tag with
        | none => collectTextEdits text starts value rest seen
        | some (start, e) =>
          if start ∈ seen then collectTextEdits text starts value rest seen
          else
            let tag_text := sliceIncl text start e
            match selfCloseAt tag_text with
            | some idx =>
              match expandTemplate []
                  ('>' :: escape_text value ++ ('<' :: '/' :: tag) ++ ['>']) with
              | none => none
              | some repl =>
                (collectTextEdits text starts value rest (start :: seen)).map
                  (fun es => (start, e, tag_text.take idx ++ repl) :: es)
            | none =>
              let end_tag := '<' :: '/' :: tag ++ ['>']
              match findFrom text end_tag (e + 1) with
              | none => collectTextEdits text starts value rest (start :: seen)
              | some end_tag_idx =>
                (collectTextEdits text starts value rest (start :: seen)).map
                  (fun es => (e + 1, end_tag_idx, escape_text value) :: es)

/-- `lib.apply_text_surgical`. -/
def apply_text_surgical (text : List Char) (elements : List PyElement) (value : List Char) :
    Option (List Char × Nat) :=
  (collectTextEdits text (line_starts text) value elements []).map
    (fun edits => (applyEditsExcl (sortDesc edits) text, edits.length))

/-- Spans of a descending edit list are in bounds and pairwise disjoint:
each edit replaces `[s, e + k)` (with `k = 1` for the inclusive attr spans and
`k = 0` for the text spans), each such region ends at or before the previous
bound, and every later (smaller-offset) edit fits before this one's start. -/
def framedOk (k : Nat) (n : Nat) : List Edit → Bool
  | [] => true
  | (s, e, _) :: rest => decide (s ≤ e + k) && decide (e + k ≤ n) && framedOk k s rest

/-- Modelled from the spec: "applying all N edits in descending-offset order
… exactly N changed tags and zero unintended changes elsewhere (… exact byte
equality of all non-matched regions against the original)".  The frame form
of applying a descending list of disjoint edits: each replaced region
`[s, e + k)` becomes its replacement text and every byte outside the replaced
regions is carried over unchanged. -/
def framedK (k : Nat) (t : List Char) : List Edit → List Char
  | [] => t
  | (s, e, r) :: rest => framedK k (t.take s) rest ++ r ++ t.drop (e + k)

/-! ### The structural mutator (tree model)

lxml trees are modelled as an arena: a document is a list of nodes indexed by
position, with parent/children links by index.  `none` for `text`/`tail`
models Python `None`. -/

/-- One element node of the parsed tree. -/
structure XNode where
  tag : List Char
  text : Option (List Char)
  tail : Option (List Char)
  parent : Option Nat
  children : List Nat
deriving DecidableEq

/-- A document: arena of nodes, ids are list indices. -/
abbrev XDoc := List XNode

/-- Update one node in place (no-op on an invalid id). -/
def updNode (d : XDoc) (id : Nat) (f : XNode → XNode) : XDoc :=
  match d.get? id with
  | none => d
  | some n => d.set id (f n)

/-- `el.getparent()`. -/
def getparent (d : XDoc) (id : Nat) : Option Nat := (d.get? id).bind (·.parent)

/-- `el.tail`. -/
def tailOf (d : XDoc) (id : Nat) : Option (List Char) := (d.get? id).bind (·.tail)

/-- `el.text`. -/
def textOf (d : XDoc) (id : Nat) : Option (List Char) := (d.get? id).bind (·.text)

/-- The children id list of a node. -/
def childrenOf (d : XDoc) (id : Nat) : List Nat :=
  match d.get? id with
  | none => []
  | some n => n.children

/-- `lib.ws_only`: `text is not None and text.strip() == ""`. -/
def ws_only (t : Option (List Char)) : Bool :=
  match t with
  | none => false
  | some s => s.all isPySpace

/-- `lib.infer_indent_from`: the text itself when it is non-empty pure
whitespace containing a newline, else `None`. -/
def infer_indent_from (t : Option (List Char)) : Option (List Char) :=
  match t with
  | none => none
  | some s =>
    if s = [] then none
    else if !(s.all isPySpace) then none
    else if !(s.contains '\n') then none
    else some s

/-- Python `a or "\n"` for an optional string `a` (`None` and `""` are
falsy). -/
def pyOrStr (a : Option (List Char)) (b : List Char) : List Char :=
  match a with
  | none => b
  | some s => if s = [] then b else s

/-- `lib.sibling_indent`: tail of the target if it is indentation-like, else
the parent's leading text under the same rule, else a newline. -/
def sibling_indent (d : XDoc) (el : Nat) : List Char :=
  if (infer_indent_from (tailOf d el)).isSome then pyOrStr (tailOf d el) (s2l "\n")
  else
    match getparent d el with
    | some p =>
      if (infer_indent_from (textOf d p)).isSome then pyOrStr (textOf d p) (s2l "\n")
      else s2l "\n"
    | none => s2l "\n"

/-- `lib.child_indent`. -/
def child_indent (d : XDoc) (p : Nat) : List Char :=
  if (infer_indent_from (textOf d p)).isSome then pyOrStr (textOf d p) (s2l "\n")
  else
    match (childrenOf d p).getLast? with
    | some lastId =>
      if (infer_indent_from (tailOf d lastId)).isSome then pyOrStr (tailOf d lastId) (s2l "\n")
      else s2l "\n"
    | none => s2l "\n"

/-- Modelled from the spec: the whitespace-inference cascade in the spec's
words — "the tail/trailing whitespace applied to newly inserted sibling
nodes is taken from the target element's own trailing whitespace if it is
pure whitespace containing a newline, else from the parent's leading text
under the same rule, else defaults to a single newline". -/
def pureWsNl (t : Option (List Char)) : Bool :=
  match t with
  | none => false
  | some s => s.all isPySpace && s.contains '\n'

/-- Modelled from the spec: the claimed sibling-insertion trailing text. -/
def spec_sibling_indent (d : XDoc) (el : Nat) : List Char :=
  if pureWsNl (tailOf d el) then (tailOf d el).getD []
  else
    match getparent d el with
    | some p => if pureWsNl (textOf d p) then (textOf d p).getD [] else s2l "\n"
    | none => s2l "\n"

mutual

/-- An XML fragment node (`--xml` content) to be cloned per match. -/
inductive Frag where
  | node (tag : List Char) (text tail : Option (List Char)) (children : FragListT)

/-- A list of fragment nodes. -/
inductive FragListT where
  | nil
  | cons (f : Frag) (fs : FragListT)

end

mutual

/-- `copy.deepcopy` of one fragment node into the arena: append a fresh node
(with the given parent) and recursively materialize its children. -/
def materialize (d : XDoc) (pid : Option Nat) : Frag → XDoc × Nat
  | .node tg tx tl cs =>
    let id := d.length
    let d1 := d ++ [⟨tg, tx, tl, pid, []⟩]
    let (d2, cids) := materializeList d1 (some id) cs
    (updNode d2 id (fun n => { n with children := cids }), id)

/-- Deep copies of a fragment list; returns the fresh root ids in order. -/
def materializeList (d : XDoc) (pid : Option Nat) : FragListT → XDoc × List Nat
  | .nil => (d, [])
  | .cons f fs =>
    let (d1, id) := materialize d pid f
    let (d2, ids) := materializeList d1 pid fs
    (d2, id :: ids)

end

/-- Python `list.insert(idx, a)` (clamps: appends when `idx` is past the
end). -/
def pyInsertAt (idx : Nat) (a : Nat) : List Nat → List Nat
  | [] => [a]
  | x :: xs =>
    match idx with
    | 0 => a :: x :: xs
    | n + 1 => x :: pyInsertAt n a xs

/-- `parent.insert(idx, n)` on the child-id list. -/
def insertChildAt (d : XDoc) (p idx cid : Nat) : XDoc :=
  updNode d p (fun n => { n with children := pyInsertAt idx cid n.children })

/-- Insert the given ids as children of `p` starting at `idx`, advancing the
index after each (the loop of `lib.apply_insert` lines 206-208). -/
def insertAll (d : XDoc) (p : Nat) : Nat → List Nat → XDoc
  | _, [] => d
  | idx, id :: ids => insertAll (insertChildAt d p idx id) p (idx + 1) ids

/-- Clone the fragment nodes, set their tails (`lib.set_tails`), and insert
them under `p` at `idx`; returns the new arena and the clone root ids. -/
def insertClones (d : XDoc) (p idx : Nat) (nodes : FragListT) (tail : List Char) :
    XDoc × List Nat :=
  let (d1, ids) := materializeList d (some p) nodes
  let d2 := ids.foldl (fun dd id => updNode dd id (fun n => { n with tail := some tail })) d1
  (insertAll d2 p idx ids, ids)

/-- `parent.index(el)` (elements are children of their parent by the tree
invariant, so the not-found case is unreachable). -/
def indexOfChild (d : XDoc) (p el : Nat) : Nat := (childrenOf d p).indexOf el

/-- Python `indent_override or fallback` (`None` and `""` are falsy). -/
def pyOrOpt (a : Option (List Char)) (b : List Char) : List Char :=
  match a with
  | none => b
  | some s => if s = [] then b else s

/-- `lib.apply_insert`: per matched element, clone the fragment nodes, infer
the tail whitespace, and insert; `none` models the `fail` calls (missing
parent for before/after, unknown position). -/
def apply_insert (d : XDoc) (elements : List Nat) (nodes : FragListT)
    (position : List Char) (indent_override : Option (List Char)) : Option (XDoc × Nat) :=
  match elements with
  | [] => some (d, 0)
  | el :: rest =>
    if position = s2l "before" ∨ position = s2l "after" then
      match getparent d el with
      | none => none
      | some p =>
        let idx0 := indexOfChild d p el
        let idx := if position = s2l "after" then idx0 + 1 else idx0
        let tail := pyOrOpt indent_override (sibling_indent d el)
        let (d1, ids) := insertClones d p idx nodes tail
        (apply_insert d1 rest nodes position indent_override).map
          (fun r => (r.1, r.2 + ids.length))
    else if position = s2l "inside-first" ∨ position = s2l "inside-last" then
      let tail := pyOrOpt indent_override (child_indent d el)
      let idx := if position = s2l "inside-first" then 0 else (childrenOf d el).length
      let (d1, ids) := insertClones d el idx nodes tail
      (apply_insert d1 rest nodes position indent_override).map
        (fun r => (r.1, r.2 + ids.length))
    else none

/-- `parent.remove(el)`: drop `el` from the parent's children and clear its
parent link. -/
def removeChild (d : XDoc) (p el : Nat) : XDoc :=
  updNode (updNode d p (fun n => { n with children := n.children.erase el })) el
    (fun n => { n with parent := none })

/-- `lib.apply_delete`; `none` models `fail("cannot delete root element")`. -/
def apply_delete (d : XDoc) : List Nat → Option (XDoc × Nat)
  | [] => some (d, 0)
  | el :: rest =>
    match getparent d el with
    | none => none
    | some p =>
      (apply_delete (removeChild d p el) rest).map (fun r => (r.1, r.2 + 1))

/-- `lib.apply_replace`; `none` models `fail("cannot replace root element")`. -/
def apply_replace (d : XDoc) (elements : List Nat) (nodes : FragListT)
    (indent_override : Option (List Char)) : Option (XDoc × Nat) :=
  match elements with
  | [] => some (d, 0)
  | el :: rest =>
    match getparent d el with
    | none => none
    | some p =>
      let idx := indexOfChild d p el
      let tail := pyOrOpt indent_override (sibling_indent d el)
      let (d1, _) := insertClones d p idx nodes tail
      let d2 := removeChild d1 p el
      (apply_replace d2 rest nodes indent_override).map (fun r => (r.1, r.2 + 1))

/-! ### The per-file driver (`main.mutate_files`)

Paths are abstract (`Nat`); parsing (lxml) and node selection (XPath,
`limit`, `ensure_elements`) are out-of-scope collaborators passed as
oracles.  `lib.fail` prints to stderr and raises `SystemExit(2)`, which
nothing catches, so a failed parse or a failed mutator aborts the whole
invocation: this is modelled by returning the outcomes produced so far
(none for the failing file) together with `some 2`. -/

/-- The per-file summary (`lib.summarize` data plus the write decision). -/
structure FileOutcome where
  path : Nat
  matchCount : Nat
  changed : Nat
  wrote : Bool
deriving DecidableEq

/-- `main.mutate_files` (lines 52-75): parse, select, mutate, and write each
file in order; a `fail` anywhere exits the process with status 2. -/
def mutate_files_model (parse : Nat → Option XDoc) (selectEls : XDoc → List Nat)
    (mutator : XDoc → List Nat → Option (XDoc × Nat)) (in_place : Bool) :
    List Nat → List FileOutcome × Option Nat
  | [] => ([], none)
  | p :: rest =>
    match parse p with
    | none => ([], some 2)
    | some d =>
      let els := selectEls d
      match mutator d els with
      | none => ([], some 2)
      | some dr =>
        let wrote := decide (dr.2 ≠ 0) && in_place
        let below := mutate_files_model parse selectEls mutator in_place rest
        (⟨p, els.length, dr.2, wrote⟩ :: below.1, below.2)

/-! ### Helper lemmas -/

theorem expandTemplate_no_bs (groups : List (List Char)) :
    ∀ tmpl : List Char, '\\' ∉ tmpl → expandTemplate groups tmpl = some tmpl := by
  intro tmpl h
  induction tmpl with
  | nil => rfl
  | cons c rest ih =>
    have hc : ¬(c = '\\') := fun he => h (he ▸ List.mem_cons_self c rest)
    have hr : '\\' ∉ rest := fun hm => h (List.mem_cons_of_mem c hm)
    rw [expandTemplate.eq_def]
    simp only [if_neg hc, ih hr, Option.map_some']

theorem lazyVal_inv {q : Char} :
    ∀ {cs v : List Char}, lazyVal q cs = some v →
      ∃ rest, cs = v ++ q :: rest ∧ ∀ c ∈ v, c ≠ q ∧ c ≠ '\n' := by
  intro cs
  induction cs with
  | nil => intro v h; exact Option.noConfusion h
  | cons c cs ih =>
    intro v h
    simp only [lazyVal] at h
    by_cases hq : c = q
    · rw [if_pos hq] at h
      cases h
      exact ⟨cs, by simp [hq], by simp⟩
    · rw [if_neg hq] at h
      by_cases hn : c = '\n'
      · rw [if_pos hn] at h; cases h
      · rw [if_neg hn] at h
        match hv : lazyVal q cs with
        | none => rw [hv] at h; cases h
        | some v0 =>
          rw [hv] at h
          cases h
          obtain ⟨rest, hcs, hall⟩ := ih hv
          refine ⟨rest, by rw [hcs]; rfl, ?_⟩
          intro x hx
          rcases List.mem_cons.mp hx with h1 | h2
          · exact h1 ▸ ⟨hq, hn⟩
          · exact hall x h2

theorem lazyVal_of_clean {q : Char} :
    ∀ (v rest : List Char), (∀ c ∈ v, c ≠ q ∧ c ≠ '\n') →
      lazyVal q (v ++ q :: rest) = some v := by
  intro v
  induction v with
  | nil => intro rest _; simp [lazyVal]
  | cons c v ih =>
    intro rest hall
    have hc := hall c (List.mem_cons_self c v)
    simp only [List.cons_append, lazyVal, if_neg hc.1, if_neg hc.2, List.append_eq,
      ih rest (fun x hx => hall x (List.mem_cons_of_mem c hx))]
    rfl

theorem countWs_cons_not {c : Char} (h : ¬(isPySpace c = true)) (l : List Char) :
    countWs (c :: l) = 0 := by
  simp [countWs, h]

theorem countWs_append_ws :
    ∀ (A l : List Char), (∀ c ∈ A, isPySpace c = true) →
      countWs (A ++ l) = A.length + countWs l := by
  intro A
  induction A with
  | nil => intro l _; simp
  | cons c A ih =>
    intro l h
    have hc := h c (List.mem_cons_self c A)
    simp only [List.cons_append, countWs, hc, if_pos, List.append_eq, List.length_cons,
      ih l (fun x hx => h x (List.mem_cons_of_mem c hx))]
    omega

theorem countWs_le_length : ∀ l : List Char, countWs l ≤ l.length := by
  intro l
  induction l with
  | nil => simp [countWs]
  | cons c l ih =>
    by_cases h : isPySpace c = true
    · simp [countWs, h]
      omega
    · simp [countWs, h]

theorem take_countWs_ws :
    ∀ (l : List Char) (j : Nat), j ≤ countWs l → ∀ c ∈ l.take j, isPySpace c = true := by
  intro l
  induction l with
  | nil => intro j _ c hc; simp at hc
  | cons a l ih =>
    intro j hj c hc
    by_cases ha : isPySpace a = true
    · match j with
      | 0 => simp at hc
      | j + 1 =>
        simp only [List.take_succ_cons, List.mem_cons] at hc
        rcases hc with h1 | h2
        · exact h1 ▸ ha
        · exact ih j (by simp [countWs, ha] at hj; omega) c h2
    · rw [countWs_cons_not ha] at hj
      interval_cases j
      simp at hc

theorem countWs_get {l : List Char} {j : Nat} (h : j < countWs l) :
    ∃ c, l.get? j = some c ∧ isPySpace c = true := by
  induction l generalizing j with
  | nil => simp [countWs] at h
  | cons a l ih =>
    by_cases ha : isPySpace a = true
    · match j with
      | 0 => exact ⟨a, rfl, ha⟩
      | j + 1 =>
        simp only [countWs, ha, if_pos] at h
        exact ih (by omega)
    · rw [countWs_cons_not ha] at h; omega

theorem tryNameAt_inv {s name : List Char} {j : Nat} {g1 g3 : List Char} {q : Char}
    (h : tryNameAt s name j = some (g1, q, g3)) :
    ∃ ws2 ws3 tail,
      g1 = s.take j ++ name ++ ws2 ++ ['='] ++ ws3 ∧
      (∀ c ∈ ws2, isPySpace c = true) ∧ (∀ c ∈ ws3, isPySpace c = true) ∧
      (q = '"' ∨ q = '\'') ∧ (∀ c ∈ g3, c ≠ q ∧ c ≠ '\n') ∧
      s.drop j = name ++ ws2 ++ ['='] ++ ws3 ++ [q] ++ g3 ++ [q] ++ tail := by
  unfold tryNameAt at h
  by_cases hpre : name.isPrefixOf (s.drop j)
  case neg => rw [if_neg hpre] at h; cases h
  rw [if_pos hpre] at h
  simp only [] at h
  have hpre' : name ++ (s.drop j).drop name.length = s.drop j := by
    obtain ⟨rest, hrest⟩ := List.isPrefixOf_iff_prefix.mp hpre
    rw [← hrest]; simp
  match heq2 : ((s.drop j).drop name.length).drop (countWs ((s.drop j).drop name.length)) with
  | [] => rw [heq2] at h; cases h
  | c2 :: rest2 =>
    rw [heq2] at h
    simp only at h
    by_cases hc2 : c2 = '='
    case neg => rw [if_neg hc2] at h; cases h
    rw [if_pos hc2] at h
    match heq3 : rest2.drop (countWs rest2) with
    | [] => rw [heq3] at h; cases h
    | q0 :: rest3 =>
      rw [heq3] at h
      simp only at h
      by_cases hq0 : (q0 = '"' || q0 = '\'') = true
      case neg => rw [if_neg hq0] at h; cases h
      rw [if_pos hq0] at h
      match hlv : lazyVal q0 rest3 with
      | none => rw [hlv] at h; cases h
      | some v =>
        rw [hlv] at h
        simp only [Option.map_some', Option.some.injEq, Prod.mk.injEq] at h
        obtain ⟨hg1, hq, hg3⟩ := h
        obtain ⟨tail, hrest3, hclean⟩ := lazyVal_inv hlv
        obtain ⟨AN, hAN⟩ : ∃ AN, (s.drop j).drop name.length = AN := ⟨_, rfl⟩
        rw [hAN] at heq2 hg1 hpre'
        obtain ⟨W2, hW2⟩ : ∃ W2, AN.take (countWs AN) = W2 := ⟨_, rfl⟩
        obtain ⟨W3, hW3⟩ : ∃ W3, rest2.take (countWs rest2) = W3 := ⟨_, rfl⟩
        rw [hW2, hW3] at hg1
        have e2 : W2 ++ (c2 :: rest2) = AN := by
          have := List.take_append_drop (countWs AN) AN
          rw [heq2, hW2] at this; exact this
        have e3 : W3 ++ (q0 :: rest3) = rest2 := by
          have := List.take_append_drop (countWs rest2) rest2
          rw [heq3, hW3] at this; exact this
        refine ⟨W2, W3, tail, hg1.symm, ?_, ?_, ?_, ?_, ?_⟩
        · exact fun c hc => take_countWs_ws AN _ (le_refl _) c (hW2 ▸ hc)
        · exact fun c hc => take_countWs_ws rest2 _ (le_refl _) c (hW3 ▸ hc)
        · rcases Bool.or_eq_true_iff.mp hq0 with h1 | h1
          · exact Or.inl (hq ▸ (decide_eq_true_eq.mp h1))
          · exact Or.inr (hq ▸ (decide_eq_true_eq.mp h1))
        · intro c hc
          have := hclean c (hg3 ▸ hc)
          exact ⟨hq ▸ this.1, this.2⟩
        · rw [← hpre', ← e2, ← e3, hrest3, hc2, hq, hg3]
          simp

theorem tryNameAt_build {s name ws2 ws3 v tail : List Char} {q : Char} {j : Nat}
    (hdrop : s.drop j = name ++ ws2 ++ ['='] ++ ws3 ++ [q] ++ v ++ [q] ++ tail)
    (hws2 : ∀ c ∈ ws2, isPySpace c = true) (hws3 : ∀ c ∈ ws3, isPySpace c = true)
    (hq : q = '"' ∨ q = '\'')
    (hv : ∀ c ∈ v, c ≠ q ∧ c ≠ '\n') :
    tryNameAt s name j = some (s.take j ++ name ++ ws2 ++ ['='] ++ ws3, q, v) := by
  have hqns : ¬(isPySpace q = true) := by rcases hq with h | h <;> rw [h] <;> decide
  have hqq : (q = '"' || q = '\'') = true := by
    rcases hq with h | h <;> rw [h] <;> decide
  have hAN : (s.drop j).drop name.length
      = ws2 ++ ('=' :: (ws3 ++ (q :: (v ++ (q :: tail))))) := by
    rw [hdrop]
    simp only [List.append_assoc, List.singleton_append]
    rw [List.drop_left]
    simp
  have hpre : name.isPrefixOf (s.drop j) = true := by
    apply List.isPrefixOf_iff_prefix.mpr
    refine ⟨ws2 ++ ('=' :: (ws3 ++ (q :: (v ++ (q :: tail))))), ?_⟩
    rw [hdrop]
    simp [List.append_assoc]
  have cW2 : countWs ((s.drop j).drop name.length) = ws2.length := by
    rw [hAN, countWs_append_ws ws2 _ hws2, countWs_cons_not (by decide)]
    omega
  have dW2 : ((s.drop j).drop name.length).drop (countWs ((s.drop j).drop name.length))
      = '=' :: (ws3 ++ (q :: (v ++ (q :: tail)))) := by
    rw [cW2, hAN]
    exact List.drop_left ws2 _
  have tW2 : ((s.drop j).drop name.length).take (countWs ((s.drop j).drop name.length))
      = ws2 := by
    rw [cW2, hAN]
    exact List.take_left ws2 _
  have cW3 : countWs (ws3 ++ (q :: (v ++ (q :: tail)))) = ws3.length := by
    rw [countWs_append_ws ws3 _ hws3, countWs_cons_not hqns]
    omega
  have dW3 : (ws3 ++ (q :: (v ++ (q :: tail)))).drop (countWs (ws3 ++ (q :: (v ++ (q :: tail)))))
      = q :: (v ++ (q :: tail)) := by
    rw [cW3]; exact List.drop_left ws3 _
  have tW3 : (ws3 ++ (q :: (v ++ (q :: tail)))).take (countWs (ws3 ++ (q :: (v ++ (q :: tail)))))
      = ws3 := by
    rw [cW3]; exact List.take_left ws3 _
  have hlz : lazyVal q (v ++ (q :: tail)) = some v := lazyVal_of_clean v tail hv
  unfold tryNameAt
  rw [if_pos hpre]
  simp only []
  rw [dW2]
  simp only [if_pos (rfl : ('=' : Char) = '=')]
  rw [dW3]
  simp only [hqq, if_pos, hlz, Option.map_some', tW2, tW3]

theorem tryCand_some_of {s name : List Char} {j : Nat}
    {r : List Char × Char × List Char} (hj1 : 1 ≤ j)
    (h : tryNameAt s name j = some r) : tryCand s name j = some r := by
  match j, hj1 with
  | j + 1, _ => simp only [tryCand, h]

theorem tryCand_inv {s name : List Char} {r : List Char × Char × List Char} :
    ∀ {k : Nat}, tryCand s name k = some r →
      ∃ j, 1 ≤ j ∧ j ≤ k ∧ tryNameAt s name j = some r := by
  intro k
  induction k with
  | zero => intro h; cases h
  | succ k ih =>
    intro h
    simp only [tryCand] at h
    match heq : tryNameAt s name (k + 1) with
    | some r0 =>
      rw [heq] at h
      cases h
      exact ⟨k + 1, by omega, le_refl _, heq⟩
    | none =>
      rw [heq] at h
      obtain ⟨j, h1, h2, h3⟩ := ih h
      exact ⟨j, h1, by omega, h3⟩

theorem tryAt_inv {s name : List Char} {r : List Char × Char × List Char}
    (h : tryAt s name = some r) :
    ∃ j, 1 ≤ j ∧ j ≤ countWs s ∧ tryNameAt s name j = some r := tryCand_inv h

theorem tryAt_build {s name : List Char} {r : List Char × Char × List Char}
    (hw : 1 ≤ countWs s) (h : tryNameAt s name (countWs s) = some r) :
    tryAt s name = some r := tryCand_some_of hw h

theorem tryAt_none_of_head {c : Char} {cs name : List Char} (h : ¬(isPySpace c = true)) :
    tryAt (c :: cs) name = none := by
  unfold tryAt
  rw [countWs_cons_not h]
  rfl

theorem tryNameAt_j_eq {s name : List Char} {j : Nat} {r : List Char × Char × List Char}
    {nh : Char} (hhead : name.head? = some nh) (hnh : ¬(isPySpace nh = true))
    (hj : j ≤ countWs s) (h : tryNameAt s name j = some r) : j = countWs s := by
  by_contra hne
  have hlt : j < countWs s := lt_of_le_of_ne hj hne
  obtain ⟨c, hget, hws⟩ := countWs_get hlt
  have hpre : name.isPrefixOf (s.drop j) = true := by
    by_contra hnp
    unfold tryNameAt at h
    rw [if_neg hnp] at h
    cases h
  obtain ⟨nt, hname⟩ : ∃ nt, name = nh :: nt := by
    cases name with
    | nil => exact Option.noConfusion hhead
    | cons a l => exact ⟨l, by injection hhead with hh; rw [hh]⟩
  obtain ⟨rest, hrest⟩ := List.isPrefixOf_iff_prefix.mp hpre
  rw [hname] at hrest
  have h0 : (s.drop j).get? 0 = some nh := by rw [← hrest]; rfl
  rw [List.get?_drop, Nat.add_zero, hget] at h0
  injection h0 with hcn
  rw [hcn] at hws
  exact hnh hws

theorem attrSearchAux_inv {name : List Char} :
    ∀ {s : List Char} {i0 i : Nat} {g1 g3 : List Char} {q : Char},
      attrSearchAux name s i0 = some (i, g1, q, g3) →
      ∃ d, i = i0 + d ∧ d ≤ s.length ∧ tryAt (s.drop d) name = some (g1, q, g3) ∧
        ∀ p < d, tryAt (s.drop p) name = none := by
  intro s
  induction s with
  | nil => intro i0 i g1 g3 q h; cases h
  | cons c cs ih =>
    intro i0 i g1 g3 q h
    simp only [attrSearchAux] at h
    match heq : tryAt (c :: cs) name with
    | some (a1, aq, a3) =>
      rw [heq] at h
      simp only [Option.some.injEq, Prod.mk.injEq] at h
      obtain ⟨hi, h1, h2, h3⟩ := h
      refine ⟨0, hi.symm ▸ (by omega), by simp, ?_, by omega⟩
      rw [List.drop_zero, heq, h1, h2, h3]
    | none =>
      rw [heq] at h
      obtain ⟨d, hd, hlen, hsucc, hfail⟩ := ih h
      refine ⟨d + 1, by omega, by simp; omega, hsucc, ?_⟩
      intro p hp
      match p with
      | 0 => rw [List.drop_zero]; exact heq
      | p + 1 => exact hfail p (by omega)

theorem attrSearchAux_build {name : List Char} :
    ∀ {s : List Char} {i0 d : Nat} {r : List Char × Char × List Char},
      tryAt (s.drop d) name = some r →
      (∀ p < d, tryAt (s.drop p) name = none) →
      attrSearchAux name s i0 = some (i0 + d, r.1, r.2.1, r.2.2) := by
  intro s
  induction s with
  | nil =>
    intro i0 d r hs _
    exfalso
    rw [List.drop_nil] at hs
    cases hs
  | cons c cs ih =>
    intro i0 d r hs hfail
    match d with
    | 0 =>
      rw [List.drop_zero] at hs
      simp only [attrSearchAux, hs, Nat.add_zero]
    | d + 1 =>
      have h0 : tryAt (c :: cs) name = none := by
        have := hfail 0 (by omega)
        rwa [List.drop_zero] at this
      simp only [attrSearchAux, h0]
      have hrec := @ih (i0 + 1) d r hs
        (fun p hp => hfail (p + 1) (by omega))
      have harith : i0 + 1 + d = i0 + (d + 1) := by omega
      rw [harith] at hrec
      exact hrec

theorem attrSearch_inv {t name : List Char} {i : Nat} {g1 g3 : List Char} {q : Char}
    (h : attrSearch t name = some (i, g1, q, g3)) :
    i ≤ t.length ∧ tryAt (t.drop i) name = some (g1, q, g3) ∧
      ∀ p < i, tryAt (t.drop p) name = none := by
  obtain ⟨d, hd, hlen, hsucc, hfail⟩ := attrSearchAux_inv h
  have : i = d := by omega
  subst this
  exact ⟨hlen, hsucc, hfail⟩

theorem attrSearch_build {t name : List Char} {i : Nat} {r : List Char × Char × List Char}
    (hs : tryAt (t.drop i) name = some r)
    (hfail : ∀ p < i, tryAt (t.drop p) name = none) :
    attrSearch t name = some (i, r.1, r.2.1, r.2.2) := by
  have := @attrSearchAux_build name t 0 i r hs hfail
  rwa [Nat.zero_add] at this

theorem attrSearch_decomp {t name : List Char} {i : Nat} {g1 g3 : List Char} {q : Char}
    (h : attrSearch t name = some (i, g1, q, g3)) :
    (q = '"' ∨ q = '\'') ∧ (∀ c ∈ g3, c ≠ q ∧ c ≠ '\n') ∧ i ≤ t.length ∧
      t.drop i = g1 ++ [q] ++ g3 ++ [q] ++ t.drop (i + (g1.length + 1 + g3.length + 1)) ∧
      t = t.take i ++ g1 ++ [q] ++ g3 ++ [q] ++ t.drop (i + (g1.length + 1 + g3.length + 1)) := by
  obtain ⟨hlen, hsucc, _⟩ := attrSearch_inv h
  obtain ⟨j, hj1, hjle, hname⟩ := tryAt_inv hsucc
  obtain ⟨ws2, ws3, tail, hg1, _, _, hquote, hg3, hdropj⟩ := tryNameAt_inv hname
  have hsplit : t.drop i = g1 ++ [q] ++ g3 ++ [q] ++ tail := by
    conv_lhs => rw [← List.take_append_drop j (t.drop i)]
    rw [hdropj, hg1]
    simp [List.append_assoc]
  have hlen4 : (g1 ++ [q] ++ g3 ++ [q]).length = g1.length + 1 + g3.length + 1 := by
    simp
    omega
  have htail : tail = t.drop (i + (g1.length + 1 + g3.length + 1)) := by
    have h1 : (t.drop i).drop (g1.length + 1 + g3.length + 1) = tail := by
      rw [hsplit, ← hlen4]
      exact List.drop_left _ _
    rw [← h1, List.drop_drop, Nat.add_comm]
  refine ⟨hquote, hg3, hlen, ?_, ?_⟩
  · rw [← htail]; exact hsplit
  · conv_lhs => rw [← List.take_append_drop i t]
    rw [hsplit, htail]
    simp [List.append_assoc]

theorem escAll_no_bs {f : Char → List Char} (hf : ∀ c, ¬(c = '\\') → '\\' ∉ f c) :
    ∀ {v : List Char}, '\\' ∉ v → '\\' ∉ escAll f v := by
  intro v
  induction v with
  | nil => intro _ h; exact absurd h (by simp [escAll])
  | cons c v ih =>
    intro hv hmem
    rw [escAll] at hmem
    rcases List.mem_append.mp hmem with h1 | h2
    · exact hf c (fun he => hv (he ▸ List.mem_cons_self c v)) h1
    · exact ih (fun hm => hv (List.mem_cons_of_mem c hm)) h2

theorem escChar_no_bs {q : Char} {ent : List Char} (hent : '\\' ∉ ent) {c : Char}
    (hc : ¬(c = '\\')) : '\\' ∉ escChar (some (q, ent)) c := by
  unfold escChar
  split_ifs with h1 h2 h3
  · decide
  · decide
  · decide
  · show '\\' ∉ (if c = q then ent else [c])
    split_ifs with h4
    · exact hent
    · simp only [List.mem_singleton]
      exact fun he => hc he.symm

theorem escape_attr_no_bs {value : List Char} {q : Char} (h : '\\' ∉ value) :
    '\\' ∉ escape_attr value q := by
  unfold escape_attr
  split_ifs with hq
  · exact escAll_no_bs (fun c hc => escChar_no_bs (by decide) hc) h
  · exact escAll_no_bs (fun c hc => escChar_no_bs (by decide) hc) h

theorem escape_text_no_bs {value : List Char} (h : '\\' ∉ value) :
    '\\' ∉ escape_text value := by
  unfold escape_text
  refine escAll_no_bs (fun c hc => ?_) h
  unfold escChar
  split_ifs with h1 h2 h3
  · decide
  · decide
  · decide
  · simp only [List.mem_singleton]
    exact fun he => hc he.symm

/-- `set_attr_in_tag` on a matched existing assignment with backslash-free
pieces: the leftmost match's value content is replaced by the escaped new
value; everything before and after the match, the whitespace-and-name part
(group 1) and the quote character are carried over unchanged. -/
theorem set_attr_found {t name value : List Char} {i : Nat} {g1 g3 : List Char} {q : Char}
    (hs : attrSearch t name = some (i, g1, q, g3))
    (hg1 : '\\' ∉ g1) (hval : '\\' ∉ value) :
    set_attr_in_tag t name value =
      some (t.take i ++ (g1 ++ [q] ++ escape_attr value q ++ [q])
        ++ t.drop (i + (g1.length + 1 + g3.length + 1)), true) := by
  have hq : q = '"' ∨ q = '\'' := (attrSearch_decomp hs).1
  have hqb : ¬(q = '\\') := by rcases hq with h | h <;> (rw [h]; decide)
  have hesc : '\\' ∉ escape_attr value q := escape_attr_no_bs hval
  have htmpl : '\\' ∉ g1 ++ [q] ++ escape_attr value q ++ [q] := by
    intro hm
    rcases List.mem_append.mp hm with hm1 | hm2
    · rcases List.mem_append.mp hm1 with hm3 | hm4
      · rcases List.mem_append.mp hm3 with hm5 | hm6
        · exact hg1 hm5
        · exact hqb (List.mem_singleton.mp hm6).symm
      · exact hesc hm4
    · exact hqb (List.mem_singleton.mp hm2).symm
  unfold set_attr_in_tag
  rw [hs]
  simp only []
  rw [expandTemplate_no_bs _ _ htmpl]
  simp only [Option.map_some']

/-- After replacing the matched value content by a quote-free, newline-free
string, the leftmost match of the attribute pattern in the edited text is at
the same position, with the same group 1 and quote character, and the new
content as group 3 — provided no whitespace occurs before the match and the
attribute name starts with a non-whitespace character. -/
theorem attrSearch_again {t name : List Char} {i : Nat} {g1 g3 : List Char} {q : Char}
    {e : List Char} {nh : Char}
    (hs : attrSearch t name = some (i, g1, q, g3))
    (hpre : ∀ c ∈ t.take i, ¬(isPySpace c = true))
    (hhead : name.head? = some nh) (hnh : ¬(isPySpace nh = true))
    (he : ∀ c ∈ e, c ≠ q ∧ c ≠ '\n') :
    attrSearch (t.take i ++ g1 ++ [q] ++ e ++ [q]
        ++ t.drop (i + (g1.length + 1 + g3.length + 1))) name
      = some (i, g1, q, e) := by
  obtain ⟨hlen, hsucc, _⟩ := attrSearch_inv hs
  obtain ⟨j, hj1, hjle, hname⟩ := tryAt_inv hsucc
  have hjw : j = countWs (t.drop i) := tryNameAt_j_eq hhead hnh hjle hname
  obtain ⟨ws2, ws3, tail, hg1, hws2, hws3, hquote, _, hdropj⟩ := tryNameAt_inv hname
  obtain ⟨nt, hnamev⟩ : ∃ nt, name = nh :: nt := by
    cases name with
    | nil => exact Option.noConfusion hhead
    | cons a l => exact ⟨l, by injection hhead with hh; rw [hh]⟩
  have htk : (t.take i).length = i := by
    rw [List.length_take]
    omega
  obtain ⟨S, hS⟩ : ∃ S, t.drop (i + (g1.length + 1 + g3.length + 1)) = S := ⟨_, rfl⟩
  rw [hS]
  have hW : ((t.drop i).take j).length = j := by
    rw [List.length_take]
    have := countWs_le_length (t.drop i)
    omega
  have hWws : ∀ c ∈ (t.drop i).take j, isPySpace c = true :=
    take_countWs_ws _ _ (le_of_eq hjw)
  -- canonical decomposition of the edited text
  have key : t.take i ++ g1 ++ [q] ++ e ++ [q] ++ S
      = (t.take i) ++ (g1 ++ ([q] ++ (e ++ ([q] ++ S)))) := by
    simp [List.append_assoc]
  rw [key]
  -- group 1 in expanded form
  have hg1R : g1 ++ ([q] ++ (e ++ ([q] ++ S)))
      = (t.drop i).take j ++ (name ++ (ws2 ++ ('=' :: (ws3 ++ (q :: (e ++ (q :: S))))))) := by
    rw [hg1]
    simp [List.append_assoc]
  -- a match attempt at the replaced position succeeds with the new content
  have hcw : countWs (g1 ++ ([q] ++ (e ++ ([q] ++ S)))) = j := by
    rw [hg1R, countWs_append_ws _ _ hWws, hnamev, List.cons_append,
      countWs_cons_not hnh, hW]
    omega
  have hdropR : (g1 ++ ([q] ++ (e ++ ([q] ++ S)))).drop j
      = name ++ ws2 ++ ['='] ++ ws3 ++ [q] ++ e ++ [q] ++ S := by
    rw [hg1R, List.drop_left' hW]
    simp [List.append_assoc]
  have htake : (g1 ++ ([q] ++ (e ++ ([q] ++ S)))).take j = (t.drop i).take j := by
    rw [hg1R, List.take_left' hW]
  have hmatch : tryNameAt (g1 ++ ([q] ++ (e ++ ([q] ++ S)))) name j
      = some ((g1 ++ ([q] ++ (e ++ ([q] ++ S)))).take j ++ name ++ ws2 ++ ['='] ++ ws3, q, e) :=
    tryNameAt_build hdropR hws2 hws3 hquote he
  have hmatch' : tryAt (g1 ++ ([q] ++ (e ++ ([q] ++ S)))) name = some (g1, q, e) := by
    apply tryAt_build (by rw [hcw]; omega)
    rw [hcw, hmatch, htake, ← hg1]
  -- attempts strictly before the match still fail: the prefix has no whitespace
  have hfails : ∀ p < i,
      tryAt ((t.take i ++ (g1 ++ ([q] ++ (e ++ ([q] ++ S))))).drop p) name = none := by
    intro p hp
    rw [List.drop_append_eq_append_drop]
    have hz : p - (t.take i).length = 0 := by omega
    rw [hz, List.drop_zero]
    match heq : (t.take i).drop p with
    | [] =>
      exfalso
      have := congrArg List.length heq
      rw [List.length_drop] at this
      simp at this
      omega
    | c :: cs =>
      have hcmem : c ∈ t.take i := List.drop_subset _ _ (heq ▸ List.mem_cons_self c cs)
      rw [List.cons_append]
      exact tryAt_none_of_head (hpre c hcmem)
  -- the edited text's drop at i is exactly the replaced region
  have hdropt : (t.take i ++ (g1 ++ ([q] ++ (e ++ ([q] ++ S))))).drop i
      = g1 ++ ([q] ++ (e ++ ([q] ++ S))) := List.drop_left' htk
  have := attrSearch_build (t := t.take i ++ (g1 ++ ([q] ++ (e ++ ([q] ++ S)))))
    (i := i) (r := (g1, q, e)) (by rw [hdropt]; exact hmatch') hfails
  exact this

/-! ### Claim C2 — setAttribute on an existing assignment -/

/-- C2 counterexample: the claim fails as stated.  For the value `\2` (a
backslash followed by a digit), `set_attr_in_tag` does not replace the
attribute value by the escaped new value: the replacement string is passed to
`re.sub` as a template, whose expansion turns `\2` into group 2 (the quote
character), yielding `<a id='''>` instead of `<a id='\2'>`. -/
theorem c2_counterexample :
    set_attr_in_tag (s2l "<a id='x'>") (s2l "id") ['\\', '2']
        = some (s2l "<a id='''>", true) ∧
      set_attr_in_tag (s2l "<a id='x'>") (s2l "id") ['\\', '2']
        ≠ some (s2l "<a id='\\2'>", true) :=
  ⟨by decide, by decide⟩

/-- C2 (amended): when the whitespace-tolerant pattern finds an existing
assignment of `name` and neither the matched group 1 nor the value contains a
backslash, `set_attr_in_tag` replaces exactly that match's value content by
`escape_attr value q`, preserving the surrounding quote character `q` (single
stays single, double stays double — only the matching quote is escaped, by
`escape_attr`) and every byte outside the matched value content; the second
conjunct exhibits the original text's decomposition around the match. -/
theorem c2_amended {t name value : List Char} {i : Nat} {g1 g3 : List Char} {q : Char}
    (hs : attrSearch t name = some (i, g1, q, g3))
    (hg1 : '\\' ∉ g1) (hval : '\\' ∉ value) :
    set_attr_in_tag t name value =
      some (t.take i ++ (g1 ++ [q] ++ escape_attr value q ++ [q])
        ++ t.drop (i + (g1.length + 1 + g3.length + 1)), true) ∧
    t = t.take i ++ g1 ++ [q] ++ g3 ++ [q]
        ++ t.drop (i + (g1.length + 1 + g3.length + 1)) ∧
    (q = '"' ∨ q = '\'') :=
  ⟨set_attr_found hs hg1 hval, (attrSearch_decomp hs).2.2.2.2, (attrSearch_decomp hs).1⟩

/-- C2 witness: the spec's own example, via `c2_amended` at a concrete
input — `setAttribute("<a id='x'/>", "id", "y")` keeps the single quotes. -/
theorem c2_witness :
    set_attr_in_tag (s2l "<a id='x'/>") (s2l "id") (s2l "y")
      = some (s2l "<a id='y'/>", true) := by
  have h := @c2_amended (s2l "<a id='x'/>") (s2l "id") (s2l "y")
    2 (s2l " id=") (s2l "x") '\''
    (by decide) (by decide) (by decide)
  rw [h.1]
  decide

/-! ### Claim C3 — idempotence of setAttribute -/

/-- C3 counterexample: idempotence fails as stated.  For a value containing a
newline the inserted assignment can never be re-matched (`.` in the pattern
does not match a newline), so the second application inserts a duplicate
attribute instead of being a no-op. -/
theorem c3_counterexample :
    set_attr_in_tag (s2l "<a>") (s2l "id") (s2l "a\nb")
        = some (s2l "<a id=\"a\nb\">", true) ∧
      set_attr_in_tag (s2l "<a id=\"a\nb\">") (s2l "id") (s2l "a\nb")
        = some (s2l "<a id=\"a\nb\" id=\"a\nb\">", true) ∧
      s2l "<a id=\"a\nb\" id=\"a\nb\">" ≠ s2l "<a id=\"a\nb\">" :=
  ⟨by decide, by decide, by decide⟩

/-- C3 (amended): applying `set_attr_in_tag` twice with the same name and
value yields the same tag text as applying it once, provided the pattern
matches an existing assignment, no whitespace occurs before the match, the
name starts with a non-whitespace character, group 1 and the value are
backslash-free, and the escaped value contains neither the quote character
nor a newline. -/
theorem c3_amended {t name value : List Char} {i : Nat} {g1 g3 : List Char} {q : Char}
    {nh : Char}
    (hs : attrSearch t name = some (i, g1, q, g3))
    (hpre : ∀ c ∈ t.take i, ¬(isPySpace c = true))
    (hhead : name.head? = some nh) (hnh : ¬(isPySpace nh = true))
    (hg1 : '\\' ∉ g1) (hval : '\\' ∉ value)
    (he : ∀ c ∈ escape_attr value q, c ≠ q ∧ c ≠ '\n') :
    ∃ t1, set_attr_in_tag t name value = some (t1, true) ∧
      set_attr_in_tag t1 name value = some (t1, true) := by
  have hlen : i ≤ t.length := (attrSearch_inv hs).1
  have htk : (t.take i).length = i := by rw [List.length_take]; omega
  obtain ⟨S, hS⟩ : ∃ S, t.drop (i + (g1.length + 1 + g3.length + 1)) = S := ⟨_, rfl⟩
  obtain ⟨e, hE⟩ : ∃ e, escape_attr value q = e := ⟨_, rfl⟩
  have h1 := set_attr_found hs hg1 hval
  rw [hS, hE] at h1
  refine ⟨t.take i ++ (g1 ++ [q] ++ e ++ [q]) ++ S, h1, ?_⟩
  have hshape : t.take i ++ (g1 ++ [q] ++ e ++ [q]) ++ S
      = t.take i ++ g1 ++ [q] ++ e ++ [q] ++ S := by
    simp [List.append_assoc]
  have hs1 : attrSearch (t.take i ++ (g1 ++ [q] ++ e ++ [q]) ++ S) name
      = some (i, g1, q, e) := by
    rw [hshape]
    have := attrSearch_again hs hpre hhead hnh (hE ▸ he)
    rw [hS] at this
    exact this
  have h2 := set_attr_found hs1 hg1 hval
  rw [hE] at h2
  rw [h2]
  have htake1 : (t.take i ++ (g1 ++ [q] ++ e ++ [q]) ++ S).take i = t.take i := by
    rw [List.append_assoc, List.take_append_of_le_length (le_of_eq htk.symm),
      List.take_take, Nat.min_self]
  have hdrop1 : (t.take i ++ (g1 ++ [q] ++ e ++ [q]) ++ S).drop
      (i + (g1.length + 1 + e.length + 1)) = S := by
    apply List.drop_left'
    simp [htk]
    omega
  rw [htake1, hdrop1]

/-- C3 witness: `c3_amended` applied at the concrete input
`set_attr_in_tag("<a id='x'>", "id", "y")`. -/
theorem c3_witness :
    ∃ t1, set_attr_in_tag (s2l "<a id='x'>") (s2l "id") (s2l "y") = some (t1, true) ∧
      set_attr_in_tag t1 (s2l "id") (s2l "y") = some (t1, true) :=
  @c3_amended (s2l "<a id='x'>") (s2l "id") (s2l "y")
    2 (s2l " id=") (s2l "x") '\'' 'i'
    (by decide) (by decide) (by decide) (by decide) (by decide) (by decide) (by decide)

/-! ### Claim C1 — frame property of descending edit application -/

theorem framedOk_le {k m n : Nat} : ∀ {edits : List Edit},
    framedOk k n edits = true → n ≤ m → framedOk k m edits = true := by
  intro edits
  match edits with
  | [] => intro _ _; rfl
  | (s, e, r) :: rest =>
    intro h hnm
    simp only [framedOk, Bool.and_eq_true, decide_eq_true_eq] at h ⊢
    exact ⟨⟨h.1.1, by omega⟩, h.2⟩

theorem framedOk_bounds {k : Nat} :
    ∀ {edits : List Edit} {n : Nat}, framedOk k n edits = true →
      ∀ ed ∈ edits, ed.1 ≤ ed.2.1 + k ∧ ed.2.1 + k ≤ n := by
  intro edits
  induction edits with
  | nil => intro n _ ed hed; cases hed
  | cons ed0 rest ih =>
    intro n h ed hed
    obtain ⟨s, e, r⟩ := ed0
    simp only [framedOk, Bool.and_eq_true, decide_eq_true_eq] at h
    rcases List.mem_cons.mp hed with h1 | h2
    · rw [h1]; exact ⟨h.1.1, h.1.2⟩
    · have := ih (framedOk_le h.2 (le_trans h.1.1 h.1.2)) ed h2
      exact this

theorem applyEditsIncl_append :
    ∀ (edits : List Edit) (A B : List Char), framedOk 1 A.length edits = true →
      applyEditsIncl edits (A ++ B) = applyEditsIncl edits A ++ B := by
  intro edits
  induction edits with
  | nil => intro A B _; rfl
  | cons ed rest ih =>
    intro A B h
    obtain ⟨s, e, r⟩ := ed
    simp only [framedOk, Bool.and_eq_true, decide_eq_true_eq] at h
    obtain ⟨⟨hse, heA⟩, hrest⟩ := h
    have hsA : s ≤ A.length := by omega
    have htake : (A ++ B).take s = A.take s := List.take_append_of_le_length hsA
    have hdrop : (A ++ B).drop (e + 1) = A.drop (e + 1) ++ B := by
      rw [List.drop_append_eq_append_drop]
      have : e + 1 - A.length = 0 := by omega
      rw [this, List.drop_zero]
    have hlenA : (A.take s ++ r ++ A.drop (e + 1)).length ≥ s := by
      simp only [List.length_append, List.length_take]
      omega
    simp only [applyEditsIncl, htake, hdrop]
    rw [show A.take s ++ r ++ (A.drop (e + 1) ++ B)
        = (A.take s ++ r ++ A.drop (e + 1)) ++ B by simp [List.append_assoc]]
    exact ih _ B (framedOk_le hrest (by omega))

theorem applyEditsIncl_framed :
    ∀ (edits : List Edit) (t : List Char), framedOk 1 t.length edits = true →
      applyEditsIncl edits t = framedK 1 t edits := by
  intro edits
  induction edits with
  | nil => intro t _; rfl
  | cons ed rest ih =>
    intro t h
    obtain ⟨s, e, r⟩ := ed
    simp only [framedOk, Bool.and_eq_true, decide_eq_true_eq] at h
    obtain ⟨⟨hse, het⟩, hrest⟩ := h
    have hst : s ≤ t.length := by omega
    have hlents : (t.take s).length = s := by rw [List.length_take]; omega
    simp only [applyEditsIncl, framedK]
    rw [show t.take s ++ r ++ t.drop (e + 1) = t.take s ++ (r ++ t.drop (e + 1))
      by simp [List.append_assoc]]
    rw [applyEditsIncl_append rest _ _ (by rw [hlents]; exact hrest)]
    rw [ih _ (by rw [hlents]; exact hrest)]
    simp [List.append_assoc]

theorem applyEditsExcl_append :
    ∀ (edits : List Edit) (A B : List Char), framedOk 0 A.length edits = true →
      applyEditsExcl edits (A ++ B) = applyEditsExcl edits A ++ B := by
  intro edits
  induction edits with
  | nil => intro A B _; rfl
  | cons ed rest ih =>
    intro A B h
    obtain ⟨s, e, r⟩ := ed
    simp only [framedOk, Bool.and_eq_true, decide_eq_true_eq] at h
    obtain ⟨⟨hse, heA⟩, hrest⟩ := h
    have hsA : s ≤ A.length := by omega
    have htake : (A ++ B).take s = A.take s := List.take_append_of_le_length hsA
    have hdrop : (A ++ B).drop e = A.drop e ++ B := by
      rw [List.drop_append_eq_append_drop]
      have : e - A.length = 0 := by omega
      rw [this, List.drop_zero]
    simp only [applyEditsExcl, htake, hdrop]
    rw [show A.take s ++ r ++ (A.drop e ++ B)
        = (A.take s ++ r ++ A.drop e) ++ B by simp [List.append_assoc]]
    refine ih _ B (framedOk_le hrest ?_)
    simp only [List.length_append, List.length_take]
    omega

theorem applyEditsExcl_framed :
    ∀ (edits : List Edit) (t : List Char), framedOk 0 t.length edits = true →
      applyEditsExcl edits t = framedK 0 t edits := by
  intro edits
  induction edits with
  | nil => intro t _; rfl
  | cons ed rest ih =>
    intro t h
    obtain ⟨s, e, r⟩ := ed
    simp only [framedOk, Bool.and_eq_true, decide_eq_true_eq] at h
    obtain ⟨⟨hse, het⟩, hrest⟩ := h
    have hst : s ≤ t.length := by omega
    have hlents : (t.take s).length = s := by rw [List.length_take]; omega
    simp only [applyEditsExcl, framedK]
    rw [show t.take s ++ r ++ t.drop e = t.take s ++ (r ++ t.drop e)
      by simp [List.append_assoc]]
    rw [applyEditsExcl_append rest _ _ (by rw [hlents]; exact hrest)]
    rw [ih _ (by rw [hlents]; exact hrest)]
    simp [List.append_assoc]

/-- C1 counterexample: the claim fails as stated.  Two matched elements can
yield overlapping tag spans (here the outer tag `<a b="<c x='1'>">` and the
nested-looking `<c x='1'>` found inside its attribute value).  Deleting
attribute `x` from both produces two overlapping edits whose descending
application destroys the four bytes `TAIL` that lie outside every collected
span: the result is `<a b="<c>">` with change count 2, and the untouched
suffix `TAIL` of the original text does not survive. -/
theorem c1_counterexample :
    apply_attr_surgical (s2l "<a b=\"<c x='1'>\">TAIL")
        [⟨1, s2l "a", 0⟩, ⟨1, s2l "c", 0⟩] (s2l "x") none false
      = some (s2l "<a b=\"<c>\">", 2) ∧
    List.isSuffixOf (s2l "TAIL") (s2l "<a b=\"<c x='1'>\">TAIL") = true ∧
    List.isSuffixOf (s2l "TAIL") (s2l "<a b=\"<c>\">") = false :=
  ⟨by decide, by decide, by decide⟩

/-- C1 (amended): for both surgical mutators, all edit spans are collected
first and applied in descending order of start offset; provided the collected
spans are pairwise disjoint and in bounds (`framedOk`), the result is exactly
the frame form `framedK`: each span replaced by its replacement text and
every byte outside the spans carried over unchanged, with the returned change
count equal to the number of collected edit spans. -/
theorem c1_amended :
    (∀ (text : List Char) (elements : List PyElement) (name : List Char)
        (value : Option (List Char)) (sv : Bool) (edits : List Edit),
      collectAttrEdits text (line_starts text) name (value.getD []) sv elements [] = some edits →
      framedOk 1 text.length (sortDesc edits) = true →
      apply_attr_surgical text elements name value sv
        = some (framedK 1 text (sortDesc edits), edits.length)) ∧
    (∀ (text : List Char) (elements : List PyElement) (value : List Char) (edits : List Edit),
      collectTextEdits text (line_starts text) value elements [] = some edits →
      framedOk 0 text.length (sortDesc edits) = true →
      apply_text_surgical text elements value
        = some (framedK 0 text (sortDesc edits), edits.length)) := by
  constructor
  · intro text elements name value sv edits hc hf
    unfold apply_attr_surgical
    rw [hc]
    simp only [Option.map_some']
    rw [applyEditsIncl_framed _ _ hf]
  · intro text elements value edits hc hf
    unfold apply_text_surgical
    rw [hc]
    simp only [Option.map_some']
    rw [applyEditsExcl_framed _ _ hf]

/-- C1 witness: `c1_amended` at concrete inputs — a two-element set-attr run
with disjoint spans, and a one-element self-closing set-text run. -/
theorem c1_witness :
    apply_attr_surgical (s2l "<a id='x'/>\n<b id='y'/>")
        [⟨1, s2l "a", 0⟩, ⟨2, s2l "b", 0⟩] (s2l "id") (some (s2l "z")) true
      = some (framedK 1 (s2l "<a id='x'/>\n<b id='y'/>")
          (sortDesc [(0, 10, s2l "<a id='z'/>"), (12, 22, s2l "<b id='z'/>")]), 2) ∧
    apply_text_surgical (s2l "<note/>") [⟨1, s2l "note", 0⟩] (s2l "hi")
      = some (framedK 0 (s2l "<note/>") (sortDesc [(0, 6, s2l "<note>hi</note>")]), 1) := by
  constructor
  · exact c1_amended.1 (s2l "<a id='x'/>\n<b id='y'/>")
      [⟨1, s2l "a", 0⟩, ⟨2, s2l "b", 0⟩] (s2l "id") (some (s2l "z")) true
      [(0, 10, s2l "<a id='z'/>"), (12, 22, s2l "<b id='z'/>")] (by decide) (by decide)
  · exact c1_amended.2 (s2l "<note/>") [⟨1, s2l "note", 0⟩] (s2l "hi")
      [(0, 6, s2l "<note>hi</note>")] (by decide) (by decide)

/-! ### Claims C5, C6, C10 — set-text edge cases and skipped elements -/

/-- C6 (code bug): on a self-closing tag, `apply_text_surgical` records the
rewritten tag over the inclusive span `(start, end)` but the application loop
splices with the end-exclusive convention `text[:start] + new + text[end:]`
(which is correct only for the content edits it also produces), so the
original `>` at offset `end` is kept and duplicated: `setText` on `<note/>`
with value `hi` yields `<note>hi</note>>`, not the `<note>hi</note>` the
specification states. -/
theorem c6_selfclosing_settext :
    apply_text_surgical (s2l "<note/>") [⟨1, s2l "note", 0⟩] (s2l "hi")
      = some (s2l "<note>hi</note>>", 1) := by decide

theorem collectText_skip_head {text : List Char} {starts : List Nat} {value : List Char}
    {el : PyElement} {ys : List PyElement} {seen : List Nat}
    (hch : el.nchildren = 0)
    (hskip : el.sourceline = 0 ∨ starts.length < el.sourceline ∨
      find_start_tag_span text (starts.getD (el.sourceline - 1) 0) (local_tag el.tag) = none) :
    collectTextEdits text starts value (el :: ys) seen
      = collectTextEdits text starts value ys seen := by
  conv_lhs => rw [collectTextEdits.eq_def]
  dsimp only []
  rw [if_neg (by simp [hch])]
  rcases hskip with h | h | h
  · rw [if_pos (Or.inl h)]
  · rw [if_pos (Or.inr h)]
  · by_cases h0 : el.sourceline = 0 ∨ starts.length < el.sourceline
    · rw [if_pos h0]
    · rw [if_neg h0]
      simp only [h]

/-- C5: a set-text request on a located, non-self-closing tag with no
matching closing tag before end-of-text records no edit: the call returns the
original text byte-identical with change count zero, and raises no error. -/
theorem c5_missing_closing_tag {text : List Char} {el : PyElement} {value : List Char}
    {s e : Nat}
    (hch : el.nchildren = 0)
    (hline : ¬(el.sourceline = 0 ∨ (line_starts text).length < el.sourceline))
    (hspan : find_start_tag_span text ((line_starts text).getD (el.sourceline - 1) 0)
        (local_tag el.tag) = some (s, e))
    (hsc : selfCloseAt (sliceIncl text s e) = none)
    (hend : findFrom text ('<' :: '/' :: local_tag el.tag ++ ['>']) (e + 1) = none) :
    apply_text_surgical text [el] value = some (text, 0) := by
  unfold apply_text_surgical collectTextEdits
  rw [if_neg (by simp [hch])]
  simp only []
  rw [if_neg hline, hspan]
  simp only []
  rw [if_neg (List.not_mem_nil s), hsc, hend]
  rfl

/-- C5 witness: `c5_missing_closing_tag` at the spec's own example — a
truncated `<note>` with no `</note>`. -/
theorem c5_witness :
    apply_text_surgical (s2l "<note>") [⟨1, s2l "note", 0⟩] (s2l "hi")
      = some (s2l "<note>", 0) :=
  @c5_missing_closing_tag (s2l "<note>") ⟨1, s2l "note", 0⟩ (s2l "hi") 0 5
    (by decide) (by decide) (by decide) (by decide) (by decide)

/-- C10 counterexample: the claim fails as stated for set-text.  An element
with a child element and an unknown source line (0) is not silently skipped:
the child check precedes the line check and `fail`s the whole operation. -/
theorem c10_counterexample :
    apply_text_surgical (s2l "<a/>") [⟨0, s2l "c", 1⟩] (s2l "v") = none := by decide

theorem collectAttr_skip_head {text : List Char} {starts : List Nat} {name value : List Char}
    {sv : Bool} {el : PyElement} {ys : List PyElement} {seen : List Nat}
    (hskip : el.sourceline = 0 ∨ starts.length < el.sourceline ∨
      find_start_tag_span text (starts.getD (el.sourceline - 1) 0) (local_tag el.tag) = none) :
    collectAttrEdits text starts name value sv (el :: ys) seen
      = collectAttrEdits text starts name value sv ys seen := by
  conv_lhs => rw [collectAttrEdits.eq_def]
  dsimp only []
  rcases hskip with h | h | h
  · rw [if_pos (Or.inl h)]
  · rw [if_pos (Or.inr h)]
  · by_cases h0 : el.sourceline = 0 ∨ starts.length < el.sourceline
    · rw [if_pos h0]
    · rw [if_neg h0]
      simp only [h]

theorem collectAttr_skip {text : List Char} {starts : List Nat} {name value : List Char}
    {sv : Bool} {el : PyElement}
    (hskip : el.sourceline = 0 ∨ starts.length < el.sourceline ∨
      find_start_tag_span text (starts.getD (el.sourceline - 1) 0) (local_tag el.tag) = none) :
    ∀ (xs ys : List PyElement) (seen : List Nat),
      collectAttrEdits text starts name value sv (xs ++ el :: ys) seen
        = collectAttrEdits text starts name value sv (xs ++ ys) seen := by
  intro xs
  induction xs with
  | nil => intro ys seen; exact collectAttr_skip_head hskip
  | cons x xs ih =>
    intro ys seen
    simp only [List.cons_append]
    unfold collectAttrEdits
    simp only []
    by_cases h0 : x.sourceline = 0 ∨ starts.length < x.sourceline
    · rw [if_pos h0, if_pos h0]
      exact ih ys seen
    · rw [if_neg h0, if_neg h0]
      match hsp : find_start_tag_span text (starts.getD (x.sourceline - 1) 0) (local_tag x.tag) with
      | none =>
        simp only [hsp]
        exact ih ys seen
      | some (s, e) =>
        simp only [hsp]
        by_cases hseen : s ∈ seen
        · rw [if_pos hseen, if_pos hseen]
          exact ih ys seen
        · rw [if_neg hseen, if_neg hseen]
          match hres : (if sv then set_attr_in_tag (sliceIncl text s e) name value
              else some (del_attr_in_tag (sliceIncl text s e) name)) with
          | none => simp only [hres]
          | some p =>
            simp only [hres]
            rw [ih ys (s :: seen)]

theorem collectText_skip {text : List Char} {starts : List Nat} {value : List Char}
    {el : PyElement}
    (hch : el.nchildren = 0)
    (hskip : el.sourceline = 0 ∨ starts.length < el.sourceline ∨
      find_start_tag_span text (starts.getD (el.sourceline - 1) 0) (local_tag el.tag) = none) :
    ∀ (xs ys : List PyElement) (seen : List Nat),
      collectTextEdits text starts value (xs ++ el :: ys) seen
        = collectTextEdits text starts value (xs ++ ys) seen := by
  intro xs
  induction xs with
  | nil => intro ys seen; exact collectText_skip_head hch hskip
  | cons x xs ih =>
    intro ys seen
    simp only [List.cons_append]
    unfold collectTextEdits
    by_cases hxc : x.nchildren ≠ 0
    · rw [if_pos hxc, if_pos hxc]
    · rw [if_neg hxc, if_neg hxc]
      simp only []
      by_cases h0 : x.sourceline = 0 ∨ starts.length < x.sourceline
      · rw [if_pos h0, if_pos h0]
        exact ih ys seen
      · rw [if_neg h0, if_neg h0]
        match hsp : find_start_tag_span text (starts.getD (x.sourceline - 1) 0) (local_tag x.tag) with
        | none =>
          simp only [hsp]
          exact ih ys seen
        | some (s, e) =>
          simp only [hsp]
          by_cases hseen : s ∈ seen
          · rw [if_pos hseen, if_pos hseen]
            exact ih ys seen
          · rw [if_neg hseen, if_neg hseen]
            match hscm : selfCloseAt (sliceIncl text s e) with
            | some idx =>
              simp only [hscm]
              match het : expandTemplate []
                  ('>' :: escape_text value ++ ('<' :: '/' :: local_tag x.tag) ++ ['>']) with
              | none => simp only [het]
              | some repl =>
                simp only [het]
                rw [ih ys (s :: seen)]
            | none =>
              simp only [hscm]
              match hef : findFrom text ('<' :: '/' :: local_tag x.tag ++ ['>']) (e + 1) with
              | none =>
                simp only [hef]
                exact ih ys (s :: seen)
              | some etidx =>
                simp only [hef]
                rw [ih ys (s :: seen)]

/-- C10 (amended): an element whose source line is 0 or past the last line
start, or whose opening-tag span cannot be located/terminated, contributes no
edit span and nothing to the change count in either surgical mutator —
unconditionally for set-attr/del-attr, and for set-text provided the element
has no child elements (the child check precedes the skip checks and fails the
whole operation otherwise). -/
theorem c10_amended :
    (∀ (text name : List Char) (value : Option (List Char)) (sv : Bool)
        (xs ys : List PyElement) (el : PyElement),
      (el.sourceline = 0 ∨ (line_starts text).length < el.sourceline ∨
        find_start_tag_span text ((line_starts text).getD (el.sourceline - 1) 0)
          (local_tag el.tag) = none) →
      apply_attr_surgical text (xs ++ el :: ys) name value sv
        = apply_attr_surgical text (xs ++ ys) name value sv) ∧
    (∀ (text value : List Char) (xs ys : List PyElement) (el : PyElement),
      el.nchildren = 0 →
      (el.sourceline = 0 ∨ (line_starts text).length < el.sourceline ∨
        find_start_tag_span text ((line_starts text).getD (el.sourceline - 1) 0)
          (local_tag el.tag) = none) →
      apply_text_surgical text (xs ++ el :: ys) value
        = apply_text_surgical text (xs ++ ys) value) := by
  constructor
  · intro text name value sv xs ys el hskip
    unfold apply_attr_surgical
    rw [collectAttr_skip hskip xs ys []]
  · intro text value xs ys el hch hskip
    unfold apply_text_surgical
    rw [collectText_skip hch hskip xs ys []]

/-- C10 witness: dropping a line-0 element does not change a set-attr run,
and dropping a childless line-0 element does not change a set-text run. -/
theorem c10_witness :
    apply_attr_surgical (s2l "<a/>") [⟨0, s2l "c", 0⟩, ⟨1, s2l "a", 0⟩]
        (s2l "id") (some (s2l "1")) true
      = apply_attr_surgical (s2l "<a/>") [⟨1, s2l "a", 0⟩] (s2l "id") (some (s2l "1")) true ∧
    apply_text_surgical (s2l "<a></a>") [⟨0, s2l "c", 0⟩] (s2l "v")
      = apply_text_surgical (s2l "<a></a>") [] (s2l "v") := by
  constructor
  · exact c10_amended.1 (s2l "<a/>") (s2l "id") (some (s2l "1")) true
      [] [⟨1, s2l "a", 0⟩] ⟨0, s2l "c", 0⟩ (by decide)
  · exact c10_amended.2 (s2l "<a></a>") (s2l "v") [] [] ⟨0, s2l "c", 0⟩
      (by decide) (by decide)

/-! ### Claims C4, C7, C9 — structural mutator and driver -/

theorem get?_updNode_ne {d : XDoc} {i r : Nat} {f : XNode → XNode} (h : r ≠ i) :
    (updNode d i f).get? r = d.get? r := by
  unfold updNode
  cases hdi : d.get? i with
  | none => rfl
  | some n => exact List.get?_set_ne _ _ (fun he => h he.symm)

theorem get?_updNode_self {d : XDoc} {i : Nat} {f : XNode → XNode} {n : XNode}
    (h : d.get? i = some n) : (updNode d i f).get? i = some (f n) := by
  unfold updNode
  rw [h]
  have hi : i < d.length := List.get?_eq_some.mp h |>.1
  exact List.get?_set_eq_of_lt _ hi

theorem length_updNode (d : XDoc) (i : Nat) (f : XNode → XNode) :
    (updNode d i f).length = d.length := by
  unfold updNode
  cases d.get? i with
  | none => rfl
  | some n => exact List.length_set d i (f n)

theorem rootish_updNode {d : XDoc} {i r : Nat} {f : XNode → XNode}
    (hf : ∀ n, n.parent = none → (f n).parent = none)
    (h : ∃ n, d.get? r = some n ∧ n.parent = none) :
    ∃ n, (updNode d i f).get? r = some n ∧ n.parent = none := by
  obtain ⟨n, hn, hp⟩ := h
  by_cases hri : r = i
  · subst hri
    exact ⟨f n, get?_updNode_self hn, hf n hp⟩
  · exact ⟨n, by rw [get?_updNode_ne hri]; exact hn, hp⟩

theorem rootish_removeChild {d : XDoc} {p el r : Nat}
    (h : ∃ n, d.get? r = some n ∧ n.parent = none) :
    ∃ n, (removeChild d p el).get? r = some n ∧ n.parent = none := by
  unfold removeChild
  apply rootish_updNode (fun n _ => rfl)
  exact rootish_updNode (fun n hp => hp) h

mutual

theorem materialize_preserves (f : Frag) :
    ∀ (d : XDoc) (pid : Option Nat),
      d.length < (materialize d pid f).1.length ∧
      (materialize d pid f).2 = d.length ∧
      ∀ r < d.length, (materialize d pid f).1.get? r = d.get? r :=
  fun d pid =>
    match f with
    | .node tg tx tl cs => by
      obtain ⟨d2, cids, hml⟩ :
          ∃ d2 cids, materializeList (d ++ [⟨tg, tx, tl, pid, []⟩]) (some d.length) cs
            = (d2, cids) := ⟨_, _, rfl⟩
      have hrec := materializeList_preserves cs (d ++ [⟨tg, tx, tl, pid, []⟩]) (some d.length)
      rw [hml] at hrec
      dsimp only [] at hrec
      obtain ⟨hlen, hget⟩ := hrec
      simp only [List.length_append, List.length_singleton] at hlen
      unfold materialize
      dsimp only []
      rw [hml]
      dsimp only []
      refine ⟨?_, rfl, ?_⟩
      · rw [length_updNode]
        omega
      · intro r hr
        rw [get?_updNode_ne (by omega)]
        rw [hget r (by simp; omega)]
        exact List.get?_append (by omega)

theorem materializeList_preserves (fs : FragListT) :
    ∀ (d : XDoc) (pid : Option Nat),
      d.length ≤ (materializeList d pid fs).1.length ∧
      ∀ r < d.length, (materializeList d pid fs).1.get? r = d.get? r :=
  fun d pid =>
    match fs with
    | .nil => ⟨le_refl _, fun _ _ => rfl⟩
    | .cons f fs => by
      obtain ⟨d1, id, hm⟩ : ∃ d1 id, materialize d pid f = (d1, id) := ⟨_, _, rfl⟩
      obtain ⟨d2, ids, hml⟩ : ∃ d2 ids, materializeList d1 pid fs = (d2, ids) := ⟨_, _, rfl⟩
      have h1 := materialize_preserves f d pid
      rw [hm] at h1
      dsimp only [] at h1
      have h2 := materializeList_preserves fs d1 pid
      rw [hml] at h2
      dsimp only [] at h2
      unfold materializeList
      dsimp only []
      rw [hm]
      dsimp only []
      rw [hml]
      dsimp only []
      refine ⟨by omega, ?_⟩
      intro r hr
      rw [h2.2 r (by omega), h1.2.2 r hr]

end

theorem rootish_materializeList {d : XDoc} {pid : Option Nat} {fs : FragListT} {r : Nat}
    (h : ∃ n, d.get? r = some n ∧ n.parent = none) :
    ∃ n, (materializeList d pid fs).1.get? r = some n ∧ n.parent = none := by
  obtain ⟨n, hn, hp⟩ := h
  have hr : r < d.length := List.get?_eq_some.mp hn |>.1
  exact ⟨n, by rw [(materializeList_preserves fs d pid).2 r hr]; exact hn, hp⟩

theorem rootish_foldl_tails {tail : List Char} {r : Nat} :
    ∀ (ids : List Nat) (d : XDoc),
      (∃ n, d.get? r = some n ∧ n.parent = none) →
      ∃ n, (ids.foldl (fun dd i =>
          updNode dd i (fun n => { n with tail := some tail })) d).get? r = some n
        ∧ n.parent = none := by
  intro ids
  induction ids with
  | nil => intro d h; exact h
  | cons i ids ih =>
    intro d h
    exact ih _ (rootish_updNode (fun _ hp => hp) h)

theorem rootish_insertAll {r : Nat} :
    ∀ (ids : List Nat) (d : XDoc) (p idx : Nat),
      (∃ n, d.get? r = some n ∧ n.parent = none) →
      ∃ n, (insertAll d p idx ids).get? r = some n ∧ n.parent = none := by
  intro ids
  induction ids with
  | nil => intro d p idx h; exact h
  | cons i ids ih =>
    intro d p idx h
    exact ih _ p (idx + 1) (rootish_updNode (fun _ hp => hp) h)

theorem rootish_insertClones {d : XDoc} {p idx : Nat} {nodes : FragListT} {tail : List Char}
    {r : Nat} (h : ∃ n, d.get? r = some n ∧ n.parent = none) :
    ∃ n, (insertClones d p idx nodes tail).1.get? r = some n ∧ n.parent = none := by
  unfold insertClones
  obtain ⟨d1, ids, hml⟩ : ∃ d1 ids, materializeList d (some p) nodes = (d1, ids) := ⟨_, _, rfl⟩
  rw [hml]
  dsimp only []
  exact rootish_insertAll ids _ p idx
    (rootish_foldl_tails ids d1 (by
      have := @rootish_materializeList d (some p) nodes r h
      rw [hml] at this
      exact this))

theorem apply_delete_root {elements : List Nat} :
    ∀ {d : XDoc} {rt : Nat}, rt ∈ elements →
      (∃ n, d.get? rt = some n ∧ n.parent = none) →
      apply_delete d elements = none := by
  induction elements with
  | nil => intro d rt h; cases h
  | cons el rest ih =>
    intro d rt hmem hroot
    unfold apply_delete
    rcases List.mem_cons.mp hmem with he | hm
    · obtain ⟨n, hn, hp⟩ := hroot
      have hgp : getparent d el = none := by
        unfold getparent
        rw [← he, hn]
        exact hp
      rw [hgp]
    · cases hgp : getparent d el with
      | none => rfl
      | some p =>
        dsimp only []
        rw [ih hm (rootish_removeChild hroot)]
        rfl

theorem apply_replace_root {elements : List Nat} :
    ∀ {d : XDoc} {rt : Nat} {nodes : FragListT} {ovr : Option (List Char)},
      rt ∈ elements →
      (∃ n, d.get? rt = some n ∧ n.parent = none) →
      apply_replace d elements nodes ovr = none := by
  induction elements with
  | nil => intro d rt nodes ovr h; cases h
  | cons el rest ih =>
    intro d rt nodes ovr hmem hroot
    unfold apply_replace
    rcases List.mem_cons.mp hmem with he | hm
    · obtain ⟨n, hn, hp⟩ := hroot
      have hgp : getparent d el = none := by
        unfold getparent
        rw [← he, hn]
        exact hp
      rw [hgp]
    · cases hgp : getparent d el with
      | none => rfl
      | some p =>
        dsimp only []
        obtain ⟨d1, ids, hic⟩ : ∃ d1 ids,
            insertClones d p (indexOfChild d p el) nodes
              (pyOrOpt ovr (sibling_indent d el)) = (d1, ids) := ⟨_, _, rfl⟩
        rw [hic]
        dsimp only []
        have hroot1 : ∃ n, (removeChild d1 p el).get? rt = some n ∧ n.parent = none := by
          apply rootish_removeChild
          have := @rootish_insertClones d p (indexOfChild d p el)
            nodes (pyOrOpt ovr (sibling_indent d el)) rt hroot
          rw [hic] at this
          exact this
        rw [ih hm hroot1]
        rfl

theorem mutate_files_mutfail {parse : Nat → Option XDoc} {selectEls : XDoc → List Nat}
    {mutator : XDoc → List Nat → Option (XDoc × Nat)} {in_place : Bool}
    {p : Nat} {rest : List Nat} {d : XDoc}
    (hp : parse p = some d) (hm : mutator d (selectEls d) = none) :
    mutate_files_model parse selectEls mutator in_place (p :: rest) = ([], some 2) := by
  unfold mutate_files_model
  rw [hp]
  dsimp only []
  rw [hm]

/-- C4: a delete or replace whose matched elements include the document root
(a node with no parent) fails — `lib.fail` raises `SystemExit` before the
loop completes — and the driver then never reaches the serialize/write step,
so no outcome is produced and no bytes are written for that file. -/
theorem c4_root_guard :
    (∀ (d : XDoc) (elements : List Nat) (rt : Nat),
      rt ∈ elements → (∃ n, d.get? rt = some n ∧ n.parent = none) →
      apply_delete d elements = none) ∧
    (∀ (d : XDoc) (elements : List Nat) (nodes : FragListT) (ovr : Option (List Char))
        (rt : Nat),
      rt ∈ elements → (∃ n, d.get? rt = some n ∧ n.parent = none) →
      apply_replace d elements nodes ovr = none) ∧
    (∀ (parse : Nat → Option XDoc) (selectEls : XDoc → List Nat)
        (mutator : XDoc → List Nat → Option (XDoc × Nat)) (in_place : Bool)
        (p : Nat) (rest : List Nat) (d : XDoc),
      parse p = some d → mutator d (selectEls d) = none →
      mutate_files_model parse selectEls mutator in_place (p :: rest) = ([], some 2)) :=
  ⟨fun _ _ _ hmem hroot => apply_delete_root hmem hroot,
   fun _ _ _ _ _ hmem hroot => apply_replace_root hmem hroot,
   fun _ _ _ _ _ _ _ hp hm => mutate_files_mutfail hp hm⟩

/-- C4 witness: `c4_root_guard` at a one-node document whose only element is
the root: delete and replace fail, and the driver records no outcome and no
write for the file. -/
theorem c4_witness :
    apply_delete [⟨s2l "r", none, none, none, []⟩] [0] = none ∧
    apply_replace [⟨s2l "r", none, none, none, []⟩] [0] .nil none = none ∧
    mutate_files_model (fun _ => some [⟨s2l "r", none, none, none, []⟩]) (fun _ => [0])
      (fun d els => apply_delete d els) true [0] = ([], some 2) := by
  refine ⟨?_, ?_, ?_⟩
  · exact c4_root_guard.1 [⟨s2l "r", none, none, none, []⟩] [0] 0 (by decide)
      ⟨⟨s2l "r", none, none, none, []⟩, by decide, rfl⟩
  · exact c4_root_guard.2.1 [⟨s2l "r", none, none, none, []⟩] [0] .nil none 0 (by decide)
      ⟨⟨s2l "r", none, none, none, []⟩, by decide, rfl⟩
  · exact c4_root_guard.2.2 _ _ _ true 0 [] [⟨s2l "r", none, none, none, []⟩] rfl
      (c4_root_guard.1 [⟨s2l "r", none, none, none, []⟩] [0] 0 (by decide)
        ⟨⟨s2l "r", none, none, none, []⟩, by decide, rfl⟩)

/-- C7 counterexample: the claim fails as stated.  With two paths where the
first fails to parse, the whole invocation exits with status 2 before the
second file is touched: no per-file outcome is produced for it, even though
processing it alone succeeds. -/
theorem c7_counterexample :
    mutate_files_model (fun p => if p = 0 then none else some [⟨s2l "r", none, none, none, []⟩])
        (fun _ => []) (fun d _ => some (d, 0)) false [0, 1]
      = ([], some 2) ∧
    mutate_files_model (fun p => if p = 0 then none else some [⟨s2l "r", none, none, none, []⟩])
        (fun _ => []) (fun d _ => some (d, 0)) false [1]
      = ([⟨1, 0, 0, false⟩], none) :=
  ⟨rfl, rfl⟩

/-- C7 (amended): a ParseError terminates the whole invocation with exit
status 2: the files before the failing one in the batch are processed
normally (their outcomes stand), but the failing file and every file after
it produce no outcome. -/
theorem c7_amended (parse : Nat → Option XDoc) (selectEls : XDoc → List Nat)
    (mutator : XDoc → List Nat → Option (XDoc × Nat)) (in_place : Bool)
    (pre : List Nat) (p : Nat) (rest : List Nat)
    (hpre : (mutate_files_model parse selectEls mutator in_place pre).2 = none)
    (hp : parse p = none) :
    mutate_files_model parse selectEls mutator in_place (pre ++ p :: rest)
      = ((mutate_files_model parse selectEls mutator in_place pre).1, some 2) := by
  induction pre with
  | nil =>
    rw [List.nil_append]
    unfold mutate_files_model
    rw [hp]
  | cons q pre ih =>
    rw [List.cons_append]
    unfold mutate_files_model
    cases hq : parse q with
    | none =>
      exfalso
      unfold mutate_files_model at hpre
      rw [hq] at hpre
      cases hpre
    | some d =>
      dsimp only []
      unfold mutate_files_model at hpre
      rw [hq] at hpre
      dsimp only [] at hpre
      cases hmq : mutator d (selectEls d) with
      | none =>
        exfalso
        rw [hmq] at hpre
        cases hpre
      | some dr =>
        rw [hmq] at hpre
        dsimp only [] at hpre
        rw [ih hpre]

/-- C7 witness: `c7_amended` with one successfully processed file before the
failing one — the first file's outcome stands, the batch exits 2, and the
file after the failure is never processed. -/
theorem c7_witness :
    mutate_files_model (fun p => if p = 0 then none else some [⟨s2l "r", none, none, none, []⟩])
        (fun _ => []) (fun d _ => some (d, 0)) false [1, 0, 2]
      = ([⟨1, 0, 0, false⟩], some 2) := by
  have h := c7_amended (fun p => if p = 0 then none else some [⟨s2l "r", none, none, none, []⟩])
    (fun _ => []) (fun d _ => some (d, 0)) false [1] 0 [2] rfl rfl
  rw [show ([1] ++ 0 :: [2] : List Nat) = [1, 0, 2] from rfl] at h
  rw [h]
  rfl

theorem materializeList_ids (fs : FragListT) :
    ∀ (d : XDoc) (pid : Option Nat),
      (∀ id ∈ (materializeList d pid fs).2,
        d.length ≤ id ∧ id < (materializeList d pid fs).1.length) ∧
      (materializeList d pid fs).2.Pairwise (· ≠ ·) :=
  fun d pid =>
    match fs with
    | .nil => by
      constructor
      · intro id hid
        exact absurd hid (by simp [materializeList])
      · simp [materializeList]
    | .cons f fs' => by
      obtain ⟨d1, id0, hm⟩ : ∃ d1 id0, materialize d pid f = (d1, id0) := ⟨_, _, rfl⟩
      obtain ⟨d2, ids, hml⟩ : ∃ d2 ids, materializeList d1 pid fs' = (d2, ids) := ⟨_, _, rfl⟩
      have hmp := materialize_preserves f d pid
      rw [hm] at hmp
      dsimp only [] at hmp
      have hlp := materializeList_preserves fs' d1 pid
      rw [hml] at hlp
      dsimp only [] at hlp
      have hids := materializeList_ids fs' d1 pid
      rw [hml] at hids
      dsimp only [] at hids
      unfold materializeList
      rw [hm]
      dsimp only []
      rw [hml]
      dsimp only []
      constructor
      · intro id hid
        rcases List.mem_cons.mp hid with h1 | h2
        · subst h1
          constructor
          · omega
          · have := hmp.1
            have := hlp.1
            omega
        · have := (hids.1 id h2).1
          have := (hids.1 id h2).2
          constructor <;> omega
      · refine List.Pairwise.cons ?_ hids.2
        intro id hid
        have := (hids.1 id hid).1
        omega

theorem foldl_tails_other {tail : List Char} :
    ∀ (js : List Nat) (d : XDoc) {id : Nat}, id ∉ js →
      (js.foldl (fun dd i =>
        updNode dd i (fun n => { n with tail := some tail })) d).get? id = d.get? id := by
  intro js
  induction js with
  | nil => intro d id _; rfl
  | cons j js ih =>
    intro d id h
    have hj : id ≠ j := fun he => h (he ▸ List.mem_cons_self j js)
    have hm : id ∉ js := fun hm => h (List.mem_cons_of_mem j hm)
    rw [List.foldl_cons, ih _ hm, get?_updNode_ne hj]

theorem length_foldl_tails {tail : List Char} :
    ∀ (js : List Nat) (d : XDoc),
      (js.foldl (fun dd i =>
        updNode dd i (fun n => { n with tail := some tail })) d).length = d.length := by
  intro js
  induction js with
  | nil => intro d; rfl
  | cons j js ih =>
    intro d
    rw [List.foldl_cons, ih, length_updNode]

theorem foldl_tails_get {tail : List Char} :
    ∀ (ids : List Nat) (d : XDoc),
      ids.Pairwise (· ≠ ·) → (∀ id ∈ ids, id < d.length) →
      ∀ id ∈ ids, ∃ n,
        (ids.foldl (fun dd i =>
          updNode dd i (fun n => { n with tail := some tail })) d).get? id = some n
          ∧ n.tail = some tail := by
  intro ids
  induction ids with
  | nil => intro d _ _ id hid; cases hid
  | cons i ids ih =>
    intro d hpw hlt id hid
    have hpw' := List.pairwise_cons.mp hpw
    rcases List.mem_cons.mp hid with h1 | h2
    · subst h1
      have hi : id < d.length := hlt id (List.mem_cons_self id ids)
      obtain ⟨n0, hn0⟩ : ∃ n0, d.get? id = some n0 := by
        cases hg : d.get? id with
        | none =>
          exfalso
          have := List.get?_eq_none.mp hg
          omega
        | some n0 => exact ⟨n0, rfl⟩
      rw [List.foldl_cons]
      rw [foldl_tails_other ids _ (fun hmem => (hpw'.1 id hmem) rfl)]
      exact ⟨{ n0 with tail := some tail }, get?_updNode_self hn0, rfl⟩
    · rw [List.foldl_cons]
      refine ih _ hpw'.2 ?_ id h2
      intro j hj
      rw [length_updNode]
      exact hlt j (List.mem_cons_of_mem i hj)

theorem insertAll_get_other :
    ∀ (ids : List Nat) (d : XDoc) (p idx : Nat) {id : Nat}, id ≠ p →
      (insertAll d p idx ids).get? id = d.get? id := by
  intro ids
  induction ids with
  | nil => intro d p idx id _; rfl
  | cons i ids ih =>
    intro d p idx id h
    unfold insertAll insertChildAt
    rw [ih _ p (idx + 1) h, get?_updNode_ne h]

/-- Every clone root inserted by `insertClones` carries exactly the computed
tail text. -/
theorem insertClones_tails {d : XDoc} {p idx : Nat} {nodes : FragListT} {tail : List Char}
    (hp : p < d.length) :
    ∀ id ∈ (insertClones d p idx nodes tail).2,
      ∃ n, (insertClones d p idx nodes tail).1.get? id = some n ∧ n.tail = some tail := by
  unfold insertClones
  obtain ⟨d1, ids, hml⟩ : ∃ d1 ids, materializeList d (some p) nodes = (d1, ids) := ⟨_, _, rfl⟩
  rw [hml]
  dsimp only []
  intro id hid
  have hids := materializeList_ids nodes d (some p)
  rw [hml] at hids
  dsimp only [] at hids
  have hb := hids.1 id hid
  have hpid : id ≠ p := by omega
  rw [insertAll_get_other ids _ p idx hpid]
  exact foldl_tails_get ids d1 hids.2 (fun j hj => (hids.1 j hj).2) id hid

/-- The inference cascade of `sibling_indent` agrees with the spec's
description of it (`spec_sibling_indent`). -/
theorem sibling_indent_eq_spec (d : XDoc) (el : Nat) :
    sibling_indent d el = spec_sibling_indent d el := by
  unfold sibling_indent spec_sibling_indent
  have hmain : ∀ t : Option (List Char),
      ((infer_indent_from t).isSome = pureWsNl t) ∧
      ((infer_indent_from t).isSome = true → pyOrStr t (s2l "\n") = t.getD []) := by
    intro t
    cases t with
    | none => exact ⟨rfl, by intro h; cases h⟩
    | some s =>
      unfold infer_indent_from pureWsNl pyOrStr
      dsimp only []
      by_cases h0 : s = []
      · subst h0; simp
      · rw [if_neg h0, if_neg h0]
        cases h1 : s.all isPySpace with
        | false => simp [h1]
        | true =>
          cases h2 : s.contains '\n' with
          | false => simp [h1, h2]
          | true => simp [h1, h2]
  rcases Bool.eq_false_or_eq_true (pureWsNl (tailOf d el)) with h | h
  · rw [if_pos (by rw [(hmain (tailOf d el)).1, h]), if_pos (by rw [h]),
      (hmain (tailOf d el)).2 (by rw [(hmain (tailOf d el)).1, h])]
  · rw [if_neg (by rw [(hmain (tailOf d el)).1, h]; simp), if_neg (by rw [h]; simp)]
    cases getparent d el with
    | none => rfl
    | some p =>
      dsimp only []
      rcases Bool.eq_false_or_eq_true (pureWsNl (textOf d p)) with h2 | h2
      · rw [if_pos (by rw [(hmain (textOf d p)).1, h2]), if_pos (by rw [h2]),
          (hmain (textOf d p)).2 (by rw [(hmain (textOf d p)).1, h2])]
      · rw [if_neg (by rw [(hmain (textOf d p)).1, h2]; simp), if_neg (by rw [h2]; simp)]

/-- C9: for a sibling insertion (before/after) with no indent override, every
newly inserted clone root receives the tail `sibling_indent` of the target,
and `sibling_indent` is exactly the spec's cascade: the target's trailing
text if it is pure whitespace containing a newline, else the parent's
leading text under the same rule, else a single newline. -/
theorem c9_sibling_tail :
    (∀ (d : XDoc) (el p : Nat) (nodes : FragListT) (pos : List Char),
      (pos = s2l "before" ∨ pos = s2l "after") →
      getparent d el = some p → p < d.length →
      ∃ (d1 : XDoc) (ids : List Nat),
        apply_insert d [el] nodes pos none = some (d1, ids.length) ∧
        ∀ id ∈ ids, ∃ n, d1.get? id = some n ∧ n.tail = some (sibling_indent d el)) ∧
    (∀ (d : XDoc) (el : Nat), sibling_indent d el = spec_sibling_indent d el) := by
  constructor
  · intro d el p nodes pos hpos hpar hp
    unfold apply_insert
    rw [if_pos hpos, hpar]
    dsimp only []
    obtain ⟨d1, ids, hic⟩ : ∃ d1 ids, insertClones d p
        (if pos = s2l "after" then indexOfChild d p el + 1 else indexOfChild d p el)
        nodes (sibling_indent d el) = (d1, ids) := ⟨_, _, rfl⟩
    rw [show pyOrOpt none (sibling_indent d el) = sibling_indent d el from rfl, hic]
    dsimp only []
    refine ⟨d1, ids, ?_, ?_⟩
    · rw [show apply_insert d1 [] nodes pos none = some (d1, 0) from rfl]
      simp
    · have := @insertClones_tails d p (if pos = s2l "after" then indexOfChild d p el + 1
        else indexOfChild d p el) nodes (sibling_indent d el) hp
      rw [hic] at this
      exact this
  · exact sibling_indent_eq_spec

/-- C9 witness: `c9_sibling_tail` at a concrete two-node document whose
target's tail is a newline and two spaces, inserting one fragment after it. -/
theorem c9_witness :
    (∃ (d1 : XDoc) (ids : List Nat),
      apply_insert
          [⟨s2l "root", some (s2l "\n  "), none, none, [1]⟩,
           ⟨s2l "a", none, some (s2l "\n  "), some 0, []⟩] [1]
          (.cons (.node (s2l "b") none none .nil) .nil) (s2l "after") none
        = some (d1, ids.length) ∧
      ∀ id ∈ ids, ∃ n, d1.get? id = some n ∧
        n.tail = some (sibling_indent
          [⟨s2l "root", some (s2l "\n  "), none, none, [1]⟩,
           ⟨s2l "a", none, some (s2l "\n  "), some 0, []⟩] 1)) ∧
    sibling_indent
        [⟨s2l "root", some (s2l "\n  "), none, none, [1]⟩,
         ⟨s2l "a", none, some (s2l "\n  "), some 0, []⟩] 1 = s2l "\n  " := by
  constructor
  · exact c9_sibling_tail.1
      [⟨s2l "root", some (s2l "\n  "), none, none, [1]⟩,
       ⟨s2l "a", none, some (s2l "\n  "), some 0, []⟩] 1 0
      (.cons (.node (s2l "b") none none .nil) .nil) (s2l "after")
      (Or.inr rfl) (by decide) (by decide)
  · decide

end XmlSurgeon
